import Mathlib

/-!
Verification of the zendesk-to-canny migration tool against its
natural-language specification.

The Go sources are shallowly embedded:
- `zendesk.go`'s paginated fetchers, enrichment worker body, user-id
  consumer and batch user loader become pure Lean functions over an
  explicit model of HTTP responses (`HttpResp`); the network is a
  caller-supplied response table, and the concurrent worker pool is
  modelled by its sequential per-record body (no claim below depends on
  cross-record emission order).
- the migration state machine (`Migration` methods) becomes explicit
  state passing over `MigSt`: the idempotency ledger, the in-run user
  mapping cache, and a log of destination (Canny) calls issued.
- Go maps become association lists with first-match lookup and
  replace-or-append update (`alookup`/`upsert`); a missing key reads as
  the zero value, as in Go.
- the destination client is an oracle of pure functions
  (`CannyOracle`), each returning the decoded reply or an error, as the
  stateless REST wrapper does.
-/

/-- Association-list lookup; first binding of the key wins (Go map read). -/
def alookup {κ ν : Type} [DecidableEq κ] : List (κ × ν) → κ → Option ν
  | [], _ => none
  | (k', v) :: rest, k => if k' = k then some v else alookup rest k

/-- Association-list update; replaces the first binding of the key or
appends a new one (Go map write). -/
def upsert {κ ν : Type} [DecidableEq κ] : List (κ × ν) → κ → ν → List (κ × ν)
  | [], k, v => [(k, v)]
  | (k', v') :: rest, k, v =>
    if k' = k then (k, v) :: rest else (k', v') :: upsert rest k v

/-- Zendesk `User` (zendesk.go): id, creation time, name, email,
external id.  The timestamp is opaque to every claim, so it is an `Int`. -/
structure User where
  ID : Int
  CreatedAt : Int
  Name : String
  Email : String
  ExternalID : String
deriving DecidableEq, Repr

/-- Zendesk `Comment` (zendesk.go). -/
structure Comment where
  ID : Int
  Body : String
  AuthorID : Int
  Author : Option User
deriving DecidableEq, Repr

/-- Zendesk `Vote` (zendesk.go). -/
structure Vote where
  ID : Int
  UserID : Int
  User : Option User
deriving DecidableEq, Repr

/-- Zendesk `Post` (zendesk.go): parent record with lazily populated
children and resolved author. -/
structure Post where
  ID : Int
  Title : String
  Details : String
  AuthorID : Int
  VoteCount : Int
  CommentCount : Int
  Comments : List Comment
  UserVotes : List Vote
  Author : Option User
deriving DecidableEq, Repr

/-- The persisted ledger `map[string]map[string]string`:
topic → (entity key → canny id). -/
abbrev StateMap := List (String × List (String × String))

/-- `formatKey` (part_002): `fmt.Sprintf("%s_%d", objType, id)`. -/
def formatKey (objType : String) (id : Int) : String :=
  objType ++ "_" ++ toString id

/-- Read a raw ledger cell: missing topic or missing key reads as `""`,
exactly as the Go nil-map check plus zero-value map read. -/
def stateValue (state : StateMap) (zTopic key : String) : String :=
  match alookup state zTopic with
  | none => ""
  | some m => (alookup m key).getD ""

/-- `Migration.getIDFromState` (part_002). -/
def getIDFromState (state : StateMap) (zTopic objType : String) (id : Int) : String :=
  stateValue state zTopic (formatKey objType id)

/-- `Migration.saveIDToState` (part_002): allocate the topic map when
absent, then write the key. -/
def saveIDToState (state : StateMap) (zTopic objType : String) (id : Int)
    (cannyID : String) : StateMap :=
  match alookup state zTopic with
  | none => upsert state zTopic [(formatKey objType id, cannyID)]
  | some m => upsert state zTopic (upsert m (formatKey objType id) cannyID)

/-- `canny.CreatePost` request body fields set by the migration. -/
structure CreatePost where
  AuthorID : String
  BoardID : String
  Details : String
  Title : String
deriving DecidableEq, Repr

/-- `canny.CreateComment` request body fields set by the migration. -/
structure CreateComment where
  AuthorID : String
  PostID : String
  Value : String
deriving DecidableEq, Repr

/-- `canny.CreateVote` request body. -/
structure CreateVote where
  PostID : String
  VoterID : String
deriving DecidableEq, Repr

/-- `canny.FindOrCreateUser` request body fields set by the migration. -/
structure FindOrCreateUser where
  Created : Int
  Email : String
  Name : String
  UserID : String
deriving DecidableEq, Repr

/-- One destination (Canny) API call issued by the migration. -/
inductive DestCall
  | post : CreatePost → DestCall
  | comment : CreateComment → DestCall
  | vote : CreateVote → DestCall
  | findUser : FindOrCreateUser → DestCall
deriving DecidableEq, Repr

/-- The destination REST client (canny package): each call returns the
decoded identifier (or, for votes, a success acknowledgement) or an
error. -/
structure CannyOracle where
  createPost : CreatePost → Except String String
  createComment : CreateComment → Except String String
  createVote : CreateVote → Except String Unit
  findOrCreateUser : FindOrCreateUser → Except String String

/-- Immutable migration parameters: the destination client, the default
author id, and the external HTML sanitizer (an excluded collaborator,
kept abstract). -/
structure MigCtx where
  canny : CannyOracle
  defaultUserID : String
  sanitize : String → String

/-- Mutable migration state: the ledger, the in-run source-id →
destination-id user cache (`Migration.UserMapping`), and the log of
destination calls issued so far. -/
structure MigSt where
  state : StateMap
  userMapping : List (Int × String)
  calls : List DestCall
deriving DecidableEq, Repr

/-- The `FindOrCreateUser` request built from a zendesk user
(`Migration.findOrCreateUser`, part_002). -/
def fcuReq (user : User) : FindOrCreateUser :=
  ⟨user.CreatedAt, user.Email, user.Name, user.ExternalID⟩

/-- `Migration.findOrCreateUser` (part_002): consult `UserMapping` by
value non-emptiness, otherwise issue one find-or-create call and cache
a successful result. -/
def findOrCreateUser (ctx : MigCtx) (user : User) (st : MigSt) :
    Except String String × MigSt :=
  let known := (alookup st.userMapping user.ID).getD ""
  if known ≠ "" then (Except.ok known, st)
  else
    let req := fcuReq user
    let st1 : MigSt := { st with calls := st.calls ++ [DestCall.findUser req] }
    match ctx.canny.findOrCreateUser req with
    | Except.error e => (Except.error e, st1)
    | Except.ok userID =>
      (Except.ok userID, { st1 with userMapping := upsert st1.userMapping user.ID userID })

/-- `Migration.resolveUser` (part_002). -/
def resolveUser (ctx : MigCtx) (user : Option User) (objType : String) (st : MigSt) :
    Except String String × MigSt :=
  match user with
  | none =>
    if ctx.defaultUserID = "" then
      (Except.error (objType ++ " doesn't have a user and default user is not specified"), st)
    else (Except.ok ctx.defaultUserID, st)
  | some u => findOrCreateUser ctx u st

/-- `Migration.createPost` (part_002): resolve the author, then issue
one posts/create call. -/
def createPost (ctx : MigCtx) (post : Post) (cBoard : String) (st : MigSt) :
    Except String String × MigSt :=
  match resolveUser ctx post.Author "post" st with
  | (Except.error e, st1) => (Except.error e, st1)
  | (Except.ok userID, st1) =>
    let req : CreatePost := ⟨userID, cBoard, ctx.sanitize post.Details, ctx.sanitize post.Title⟩
    let st2 : MigSt := { st1 with calls := st1.calls ++ [DestCall.post req] }
    (ctx.canny.createPost req, st2)

/-- `Migration.createComment` (part_002). -/
def createComment (ctx : MigCtx) (comment : Comment) (postID : String) (st : MigSt) :
    Except String String × MigSt :=
  match resolveUser ctx comment.Author "comment" st with
  | (Except.error e, st1) => (Except.error e, st1)
  | (Except.ok userID, st1) =>
    let req : CreateComment := ⟨userID, postID, ctx.sanitize comment.Body⟩
    let st2 : MigSt := { st1 with calls := st1.calls ++ [DestCall.comment req] }
    (ctx.canny.createComment req, st2)

/-- `Migration.createVote` (part_002): a successful vote creation
returns the placeholder `"s"` (the votes endpoint returns no id). -/
def createVote (ctx : MigCtx) (vote : Vote) (postID : String) (st : MigSt) :
    Except String String × MigSt :=
  match resolveUser ctx vote.User "vote" st with
  | (Except.error e, st1) => (Except.error e, st1)
  | (Except.ok userID, st1) =>
    let req : CreateVote := ⟨postID, userID⟩
    let st2 : MigSt := { st1 with calls := st1.calls ++ [DestCall.vote req] }
    match ctx.canny.createVote req with
    | Except.error e => (Except.error e, st2)
    | Except.ok _ => (Except.ok "s", st2)

/-- The comment loop of `Migration.migratePost` (part_002): skip
ledgered comments, create and ledger the rest, return early on error. -/
def migrateComments (ctx : MigCtx) (zTopic postID : String) :
    List Comment → MigSt → Except String Unit × MigSt
  | [], st => (Except.ok (), st)
  | c :: rest, st =>
    if getIDFromState st.state zTopic "comment" c.ID ≠ "" then
      migrateComments ctx zTopic postID rest st
    else
      match createComment ctx c postID st with
      | (Except.error e, st1) => (Except.error e, st1)
      | (Except.ok commentID, st1) =>
        migrateComments ctx zTopic postID rest
          { st1 with state := saveIDToState st1.state zTopic "comment" c.ID commentID }

/-- The vote loop of `Migration.migratePost` (part_002): skip ledgered
votes and votes with no resolved user, create and ledger the rest,
return early on error. -/
def migrateVotes (ctx : MigCtx) (zTopic postID : String) :
    List Vote → MigSt → Except String Unit × MigSt
  | [], st => (Except.ok (), st)
  | v :: rest, st =>
    if getIDFromState st.state zTopic "vote" v.ID ≠ "" ∨ v.User = none then
      migrateVotes ctx zTopic postID rest st
    else
      match createVote ctx v postID st with
      | (Except.error e, st1) => (Except.error e, st1)
      | (Except.ok voteSuccess, st1) =>
        migrateVotes ctx zTopic postID rest
          { st1 with state := saveIDToState st1.state zTopic "vote" v.ID voteSuccess }

/-- `Migration.migratePost` (part_002): ledger-check/create the post,
then its comments, then its votes, returning at the first error. -/
def migratePost (ctx : MigCtx) (post : Post) (zTopic cBoard : String) (st : MigSt) :
    Except String Unit × MigSt :=
  let step1 : Except String String × MigSt :=
    if getIDFromState st.state zTopic "post" post.ID = "" then
      match createPost ctx post cBoard st with
      | (Except.error e, st1) => (Except.error e, st1)
      | (Except.ok postID, st1) =>
        (Except.ok postID,
         { st1 with state := saveIDToState st1.state zTopic "post" post.ID postID })
    else (Except.ok (getIDFromState st.state zTopic "post" post.ID), st)
  match step1 with
  | (Except.error e, st1) => (Except.error e, st1)
  | (Except.ok postID, st1) =>
    match migrateComments ctx zTopic postID post.Comments st1 with
    | (Except.error e, st2) => (Except.error e, st2)
    | (Except.ok _, st2) => migrateVotes ctx zTopic postID post.UserVotes st2

/-- The per-topic post loop of `Migration.Migrate` (part_002): every
post is attempted; a failing post is counted and the loop continues.
Returns (success count, fail count, final state). -/
def migrateTopic (ctx : MigCtx) (zTopic cBoard : String) :
    List Post → MigSt → Nat × Nat × MigSt
  | [], st => (0, 0, st)
  | p :: rest, st =>
    match migratePost ctx p zTopic cBoard st with
    | (Except.ok _, st1) =>
      let r := migrateTopic ctx zTopic cBoard rest st1
      (r.1 + 1, r.2.1, r.2.2)
    | (Except.error _, st1) =>
      let r := migrateTopic ctx zTopic cBoard rest st1
      (r.1, r.2.1 + 1, r.2.2)

/-- The topic loop of `Migration.Migrate` (part_002), over the
already-enriched post list of each (topic, board) pair. -/
def migrateRun (ctx : MigCtx) :
    List (String × String × List Post) → MigSt → Nat × Nat × MigSt
  | [], st => (0, 0, st)
  | (t, b, posts) :: rest, st =>
    let r := migrateTopic ctx t b posts st
    let r' := migrateRun ctx rest r.2.2
    (r.1 + r'.1, r.2.1 + r'.2.1, r'.2.2)

/-- One HTTP GET outcome as seen after `Client.get` (zendesk.go) read
the body: the status code and, when the JSON decoded, the decoded
value (`none` models an unmarshal failure). -/
structure HttpResp (α : Type) where
  status : Nat
  body : Option α
deriving DecidableEq, Repr

/-- Errors of `Client.get`: non-200 status, or undecodable body. -/
inductive GetErr
  | badStatus : Nat → GetErr
  | decodeFailure : GetErr
deriving DecidableEq, Repr

/-- `Client.get` (zendesk.go): reject a non-200 status, then require a
decodable body. -/
def clientGet {α : Type} (r : HttpResp α) : Except GetErr α :=
  if r.status ≠ 200 then Except.error (GetErr.badStatus r.status)
  else
    match r.body with
    | none => Except.error GetErr.decodeFailure
    | some v => Except.ok v

/-- One decoded list-endpoint page: the item array (absent when the
JSON had no/null array, a Go nil slice) and the next-page cursor. -/
structure PageResp (α : Type) where
  items : Option (List α)
  nextPage : String
deriving DecidableEq, Repr

/-- Errors of the paginated fetchers: a failed GET, a nil item array
alongside a non-empty next-page cursor, or the transport yielding no
further response for a requested page. -/
inductive FetchErr
  | getFailed : GetErr → FetchErr
  | malformed : FetchErr
  | noResponse : FetchErr
deriving DecidableEq, Repr

/-- The page loop shared (textually duplicated) by `Client.getComments`
and `Client.getVotes` (zendesk.go): follow the cursor chain,
concatenating item arrays, until a page with an empty cursor.  The
network is modelled as the sequence of responses the successive GETs
receive; exhausting it models a transport failure. -/
def pagedFetchLoop {α : Type} :
    List (HttpResp (PageResp α)) → List α → Except FetchErr (List α)
  | [], _ => Except.error FetchErr.noResponse
  | r :: rest, acc =>
    match clientGet r with
    | Except.error e => Except.error (FetchErr.getFailed e)
    | Except.ok page =>
      if page.items.isNone ∧ page.nextPage ≠ "" then Except.error FetchErr.malformed
      else
        let acc2 := acc ++ page.items.getD []
        if page.nextPage = "" then Except.ok acc2
        else pagedFetchLoop rest acc2

/-- `Client.getComments` (zendesk.go). -/
def getComments (responses : List (HttpResp (PageResp Comment))) :
    Except FetchErr (List Comment) :=
  pagedFetchLoop responses []

/-- `Client.getVotes` (zendesk.go). -/
def getVotes (responses : List (HttpResp (PageResp Vote))) :
    Except FetchErr (List Vote) :=
  pagedFetchLoop responses []

/-- The top-level page loop of `Client.GetPosts` (zendesk.go): same
cursor chain, but posts stream out as they arrive and an error is kept
as the (fatal) second component rather than discarding the stream. -/
def postsLoop :
    List (HttpResp (PageResp Post)) → List Post → List Post × Option FetchErr
  | [], acc => (acc, some FetchErr.noResponse)
  | r :: rest, acc =>
    match clientGet r with
    | Except.error e => (acc, some (FetchErr.getFailed e))
    | Except.ok page =>
      if page.items.isNone ∧ page.nextPage ≠ "" then (acc, some FetchErr.malformed)
      else
        let acc2 := acc ++ page.items.getD []
        if page.nextPage = "" then (acc2, none)
        else postsLoop rest acc2

/-- The per-post response tables backing the enrichment sub-fetches:
for each post id, the comment pages and the vote pages the source
serves. -/
structure FetchEnv where
  commentPages : Int → List (HttpResp (PageResp Comment))
  votePages : Int → List (HttpResp (PageResp Vote))

/-- The vote stage of the `detailsLoader` worker body (zendesk.go):
fetch votes when the declared count is positive; an error drops the
record, success attaches the votes and emits their voter ids. -/
def enrichVotesStage (env : FetchEnv) (post : Post) (userIDs : List Int) :
    Option Post × List FetchErr × List Int :=
  if post.VoteCount > 0 then
    match getVotes (env.votePages post.ID) with
    | Except.error e => (none, [e], userIDs)
    | Except.ok votes =>
      (some { post with UserVotes := votes }, [],
       userIDs ++ votes.map (fun v => v.UserID))
  else (some post, [], userIDs)

/-- The body of one `detailsLoader` worker iteration (zendesk.go):
emit the author id, fetch comments when declared, then votes; a failed
sub-fetch emits the error and abandons the record (first component
`none`).  Returns (emitted record, emitted errors, emitted user ids). -/
def enrichPost (env : FetchEnv) (post : Post) :
    Option Post × List FetchErr × List Int :=
  let userIDs := [post.AuthorID]
  if post.CommentCount > 0 then
    match getComments (env.commentPages post.ID) with
    | Except.error e => (none, [e], userIDs)
    | Except.ok comments =>
      enrichVotesStage env { post with Comments := comments }
        (userIDs ++ comments.map (fun c => c.AuthorID))
  else enrichVotesStage env post userIDs

/-- The worker pool over a stream of posts, modelled sequentially:
concatenated result/error/user-id streams.  No claim below depends on
the cross-record interleaving the real pool produces. -/
def enrichAll (env : FetchEnv) : List Post → List Post × List FetchErr × List Int
  | [] => ([], [], [])
  | p :: rest =>
    let r := enrichPost env p
    let rs := enrichAll env rest
    ((match r.1 with
      | some q => q :: rs.1
      | none => rs.1),
     r.2.1 ++ rs.2.1, r.2.2 ++ rs.2.2)

/-- The process-wide user cache `map[int64]*User` (zendesk.go): a `none`
value is the nil-pointer sentinel written while a load is pending. -/
abbrev UserCache := List (Int × Option User)

/-- One step of the single consumer of the user-id stream in
`Client.GetPosts` (zendesk.go): append the id to the pending-load list
only if it is not yet a key of the cache, and mark it with the nil
sentinel immediately. -/
def collectUsersStep (acc : UserCache × List Int) (userID : Int) : UserCache × List Int :=
  match alookup acc.1 userID with
  | some _ => acc
  | none => (upsert acc.1 userID none, acc.2 ++ [userID])

/-- The user-id stream consumer of `Client.GetPosts` (zendesk.go), over
the whole drained stream. -/
def collectUsersToLoad (users : UserCache) (stream : List Int) : UserCache × List Int :=
  stream.foldl collectUsersStep (users, [])

/-- The batch-splitting loop of `Client.loadUsers` (zendesk.go), with
the list length as fuel for the `for batchSize < len(ids)` loop: peel
batches of 100 while more than 100 ids remain, then append the rest as
the final batch. -/
def splitBatchesGo : Nat → List Int → List (List Int)
  | 0, ids => [ids]
  | fuel + 1, ids =>
    if 100 < ids.length then ids.take 100 :: splitBatchesGo fuel (ids.drop 100)
    else [ids]

/-- The batches (one show_many request each) `Client.loadUsers` issues. -/
def splitBatches (ids : List Int) : List (List Int) :=
  splitBatchesGo ids.length ids

/-- The request loop of `Client.loadUsers` (zendesk.go): one GET per
batch, stopping at the first error, writing every returned user into
the cache. -/
def loadUsersLoop (batchResp : List Int → HttpResp (List User)) :
    List (List Int) → UserCache → Except GetErr UserCache
  | [], users => Except.ok users
  | batch :: rest, users =>
    match clientGet (batchResp batch) with
    | Except.error e => Except.error e
    | Except.ok returned =>
      loadUsersLoop batchResp rest
        (returned.foldl (fun us u => upsert us u.ID (some u)) users)

/-- `Client.loadUsers` (zendesk.go). -/
def loadUsers (batchResp : List Int → HttpResp (List User)) (users : UserCache)
    (ids : List Int) : Except GetErr UserCache :=
  loadUsersLoop batchResp (splitBatches ids) users

/-- A JSON value as far as the persisted ledger needs: strings and
objects.  `encoding/json` byte formatting is below this model; the
round-trip claim is about the value level. -/
inductive Json
  | str : String → Json
  | obj : List (String × Json) → Json

/-- `json.Marshal` of an inner `map[string]string`. -/
def marshalInner (m : List (String × String)) : Json :=
  Json.obj (m.map fun kv => (kv.1, Json.str kv.2))

/-- `json.MarshalIndent` of the ledger `map[string]map[string]string`
(`Migration.saveState`, part_002), at the value level. -/
def marshalState (s : StateMap) : Json :=
  Json.obj (s.map fun tm => (tm.1, marshalInner tm.2))

/-- `json.Unmarshal` of an object's fields into a fresh
`map[string]string`: every value must be a string; later duplicate
keys overwrite earlier ones, as successive Go map writes do. -/
def unmarshalFields : List (String × Json) → List (String × String) →
    Option (List (String × String))
  | [], acc => some acc
  | (k, Json.str v) :: rest, acc => unmarshalFields rest (upsert acc k v)
  | (_, Json.obj _) :: _, _ => none

/-- `json.Unmarshal` into a `map[string]string`. -/
def unmarshalInner : Json → Option (List (String × String))
  | Json.obj fields => unmarshalFields fields []
  | Json.str _ => none

/-- The outer field loop of `json.Unmarshal` into the ledger map. -/
def unmarshalStateFields : List (String × Json) → StateMap → Option StateMap
  | [], acc => some acc
  | (k, j) :: rest, acc =>
    match unmarshalInner j with
    | none => none
    | some m => unmarshalStateFields rest (upsert acc k m)

/-- `json.Unmarshal` into the ledger `map[string]map[string]string`. -/
def unmarshalState : Json → Option StateMap
  | Json.obj fields => unmarshalStateFields fields []
  | Json.str _ => none

/-- `Migration.saveState` (part_002) at the value level: the state file
after a successful save holds the marshalled ledger. -/
def saveState (s : StateMap) : Option Json :=
  some (marshalState s)

/-- `Migration.loadState` (part_002): an absent (or unconfigured) state
file yields the empty ledger; otherwise the file must unmarshal. -/
def loadState (file : Option Json) : Except String StateMap :=
  match file with
  | none => Except.ok []
  | some j =>
    match unmarshalState j with
    | none => Except.error "cannot unmarshal state"
    | some st => Except.ok st

theorem alookup_upsert {κ ν : Type} [DecidableEq κ] (m : List (κ × ν)) (k k' : κ) (v : ν) :
    alookup (upsert m k v) k' = if k = k' then some v else alookup m k' := by
  induction m with
  | nil => by_cases h : k = k' <;> simp [upsert, alookup, h]
  | cons hd tl ih =>
    obtain ⟨k0, v0⟩ := hd
    by_cases h0 : k0 = k
    · subst h0
      by_cases h1 : k0 = k' <;> simp [upsert, alookup, h1]
    · by_cases h1 : k0 = k' <;> by_cases h2 : k = k' <;>
        simp_all [upsert, alookup]

theorem alookup_upsert_self {κ ν : Type} [DecidableEq κ] (m : List (κ × ν)) (k : κ) (v : ν) :
    alookup (upsert m k v) k = some v := by
  simp [alookup_upsert]

theorem alookup_upsert_other {κ ν : Type} [DecidableEq κ] (m : List (κ × ν)) (k k' : κ)
    (v : ν) (h : k ≠ k') : alookup (upsert m k v) k' = alookup m k' := by
  simp [alookup_upsert, h]

theorem stateValue_save_self (st : StateMap) (t ty : String) (id : Int) (v : String) :
    stateValue (saveIDToState st t ty id v) t (formatKey ty id) = v := by
  unfold saveIDToState stateValue
  cases h : alookup st t with
  | none => simp [alookup_upsert_self, alookup]
  | some m => simp [alookup_upsert_self]

theorem stateValue_save_other (st : StateMap) (t ty : String) (id : Int) (v : String)
    (t' k' : String) (h : t' ≠ t ∨ k' ≠ formatKey ty id) :
    stateValue (saveIDToState st t ty id v) t' k' = stateValue st t' k' := by
  by_cases ht : t' = t
  · subst ht
    have hk : k' ≠ formatKey ty id := by
      rcases h with h | h
      · exact absurd rfl h
      · exact h
    unfold saveIDToState stateValue
    cases hm : alookup st t' with
    | none =>
      rw [alookup_upsert_self]
      simp [alookup, Ne.symm hk]
    | some m =>
      rw [alookup_upsert_self]
      simp [alookup_upsert_other _ _ _ _ (Ne.symm hk)]
  · unfold saveIDToState stateValue
    cases hm : alookup st t with
    | none => rw [alookup_upsert_other _ _ _ _ (fun hh => ht hh.symm)]
    | some m => rw [alookup_upsert_other _ _ _ _ (fun hh => ht hh.symm)]

/-- Non-empty ledger cells of `σ` survive into `σ'` unchanged. -/
def preservesNonEmpty (σ σ' : StateMap) : Prop :=
  ∀ t k, stateValue σ t k ≠ "" → stateValue σ' t k = stateValue σ t k

theorem preservesNonEmpty_refl (σ : StateMap) : preservesNonEmpty σ σ :=
  fun _ _ _ => rfl

theorem preservesNonEmpty_trans {σ₁ σ₂ σ₃ : StateMap}
    (h12 : preservesNonEmpty σ₁ σ₂) (h23 : preservesNonEmpty σ₂ σ₃) :
    preservesNonEmpty σ₁ σ₃ := by
  intro t k h
  rw [← h12 t k h]
  exact h23 t k (by rw [h12 t k h]; exact h)

theorem preservesNonEmpty_save (σ : StateMap) (t ty : String) (id : Int) (v : String)
    (h : getIDFromState σ t ty id = "") :
    preservesNonEmpty σ (saveIDToState σ t ty id v) := by
  intro t' k' hne
  by_cases hh : t' = t ∧ k' = formatKey ty id
  · exfalso
    obtain ⟨h1, h2⟩ := hh
    subst h1; subst h2
    exact hne h
  · rw [stateValue_save_other]
    rcases not_and_or.mp hh with h1 | h2
    · exact Or.inl h1
    · exact Or.inr h2

theorem findOrCreateUser_state (ctx : MigCtx) (u : User) (st : MigSt) :
    ((findOrCreateUser ctx u st).2.state = st.state) := by
  unfold findOrCreateUser
  by_cases h : (alookup st.userMapping u.ID).getD "" ≠ ""
  · simp [h]
  · simp only [h, if_false]
    cases ctx.canny.findOrCreateUser (fcuReq u) <;> rfl

theorem resolveUser_state (ctx : MigCtx) (u : Option User) (ty : String) (st : MigSt) :
    ((resolveUser ctx u ty st).2.state = st.state) := by
  unfold resolveUser
  cases u with
  | none => by_cases h : ctx.defaultUserID = "" <;> simp [h]
  | some u => exact findOrCreateUser_state ctx u st

theorem createPost_state (ctx : MigCtx) (p : Post) (b : String) (st : MigSt) :
    ((createPost ctx p b st).2.state = st.state) := by
  unfold createPost
  rcases h : resolveUser ctx p.Author "post" st with ⟨r, st1⟩
  have hst : st1.state = st.state := by
    have := resolveUser_state ctx p.Author "post" st
    rw [h] at this; exact this
  cases r <;> simpa using hst

theorem createComment_state (ctx : MigCtx) (c : Comment) (pid : String) (st : MigSt) :
    ((createComment ctx c pid st).2.state = st.state) := by
  unfold createComment
  rcases h : resolveUser ctx c.Author "comment" st with ⟨r, st1⟩
  have hst : st1.state = st.state := by
    have := resolveUser_state ctx c.Author "comment" st
    rw [h] at this; exact this
  cases r <;> simpa using hst

theorem createVote_state (ctx : MigCtx) (v : Vote) (pid : String) (st : MigSt) :
    ((createVote ctx v pid st).2.state = st.state) := by
  unfold createVote
  rcases h : resolveUser ctx v.User "vote" st with ⟨r, st1⟩
  have hst : st1.state = st.state := by
    have := resolveUser_state ctx v.User "vote" st
    rw [h] at this; exact this
  cases r with
  | error e => simpa using hst
  | ok userID =>
    simp only []
    split <;> simpa using hst

theorem migrateComments_preserves (ctx : MigCtx) (t pid : String) (cs : List Comment) :
    ∀ st : MigSt, preservesNonEmpty st.state (migrateComments ctx t pid cs st).2.state := by
  induction cs with
  | nil => intro st; exact preservesNonEmpty_refl _
  | cons c rest ih =>
    intro st
    by_cases hc : getIDFromState st.state t "comment" c.ID ≠ ""
    · have hl : migrateComments ctx t pid (c :: rest) st = migrateComments ctx t pid rest st := by
        simp [migrateComments, hc]
      rw [hl]
      exact ih st
    · push_neg at hc
      rcases hcc : createComment ctx c pid st with ⟨r, st1⟩
      have hst1 : st1.state = st.state := by
        have h0 := createComment_state ctx c pid st
        rw [hcc] at h0; exact h0
      cases r with
      | error e =>
        have hl : migrateComments ctx t pid (c :: rest) st = (Except.error e, st1) := by
          simp [migrateComments, hc, hcc]
        rw [hl]
        intro t' k' h; rw [hst1]
      | ok cid =>
        have hl : migrateComments ctx t pid (c :: rest) st =
            migrateComments ctx t pid rest
              { st1 with state := saveIDToState st1.state t "comment" c.ID cid } := by
          simp [migrateComments, hc, hcc]
        rw [hl]
        have h1 : preservesNonEmpty st.state (saveIDToState st1.state t "comment" c.ID cid) := by
          rw [hst1]
          exact preservesNonEmpty_save st.state t "comment" c.ID cid hc
        exact preservesNonEmpty_trans h1
          (ih { st1 with state := saveIDToState st1.state t "comment" c.ID cid })

theorem migrateVotes_preserves (ctx : MigCtx) (t pid : String) (vs : List Vote) :
    ∀ st : MigSt, preservesNonEmpty st.state (migrateVotes ctx t pid vs st).2.state := by
  induction vs with
  | nil => intro st; exact preservesNonEmpty_refl _
  | cons v rest ih =>
    intro st
    by_cases hv : getIDFromState st.state t "vote" v.ID ≠ "" ∨ v.User = none
    · have hl : migrateVotes ctx t pid (v :: rest) st = migrateVotes ctx t pid rest st := by
        simp only [migrateVotes, if_pos hv]
      rw [hl]
      exact ih st
    · have hvv : getIDFromState st.state t "vote" v.ID = "" := by
        by_contra hne
        exact hv (Or.inl hne)
      rcases hcv : createVote ctx v pid st with ⟨r, st1⟩
      have hst1 : st1.state = st.state := by
        have h0 := createVote_state ctx v pid st
        rw [hcv] at h0; exact h0
      cases r with
      | error e =>
        have hl : migrateVotes ctx t pid (v :: rest) st = (Except.error e, st1) := by
          simp only [migrateVotes, if_neg hv, hcv]
        rw [hl]
        intro t' k' h; rw [hst1]
      | ok voteSuccess =>
        have hl : migrateVotes ctx t pid (v :: rest) st =
            migrateVotes ctx t pid rest
              { st1 with state := saveIDToState st1.state t "vote" v.ID voteSuccess } := by
          simp only [migrateVotes, if_neg hv, hcv]
        rw [hl]
        have h1 : preservesNonEmpty st.state (saveIDToState st1.state t "vote" v.ID voteSuccess) := by
          rw [hst1]
          exact preservesNonEmpty_save st.state t "vote" v.ID voteSuccess hvv
        exact preservesNonEmpty_trans h1
          (ih { st1 with state := saveIDToState st1.state t "vote" v.ID voteSuccess })

theorem migratePost_preserves (ctx : MigCtx) (p : Post) (t b : String) (st : MigSt) :
    preservesNonEmpty st.state (migratePost ctx p t b st).2.state := by
  by_cases hp : getIDFromState st.state t "post" p.ID = ""
  · rcases hcp : createPost ctx p b st with ⟨r, st1⟩
    have hst1 : st1.state = st.state := by
      have h0 := createPost_state ctx p b st
      rw [hcp] at h0; exact h0
    cases r with
    | error e =>
      have hl : migratePost ctx p t b st = (Except.error e, st1) := by
        simp [migratePost, hp, hcp]
      rw [hl]
      intro t' k' h; rw [hst1]
    | ok pid =>
      rcases hmc : migrateComments ctx t pid p.Comments
          { st1 with state := saveIDToState st1.state t "post" p.ID pid } with ⟨rc, st3⟩
      have hpre2 : preservesNonEmpty st.state st3.state := by
        have hsave : preservesNonEmpty st.state (saveIDToState st.state t "post" p.ID pid) :=
          preservesNonEmpty_save st.state t "post" p.ID pid hp
        have hcm := migrateComments_preserves ctx t pid p.Comments
          { st1 with state := saveIDToState st1.state t "post" p.ID pid }
        rw [hmc] at hcm
        rw [hst1] at hcm
        exact preservesNonEmpty_trans hsave hcm
      cases rc with
      | error e =>
        have hl : migratePost ctx p t b st = (Except.error e, st3) := by
          simp [migratePost, hp, hcp, hmc]
        rw [hl]
        exact hpre2
      | ok u =>
        have hl : migratePost ctx p t b st = migrateVotes ctx t pid p.UserVotes st3 := by
          simp [migratePost, hp, hcp, hmc]
        rw [hl]
        exact preservesNonEmpty_trans hpre2 (migrateVotes_preserves ctx t pid p.UserVotes st3)
  · rcases hmc : migrateComments ctx t (getIDFromState st.state t "post" p.ID)
        p.Comments st with ⟨rc, st3⟩
    have hpre2 : preservesNonEmpty st.state st3.state := by
      have hcm := migrateComments_preserves ctx t (getIDFromState st.state t "post" p.ID)
        p.Comments st
      rw [hmc] at hcm
      exact hcm
    cases rc with
    | error e =>
      have hl : migratePost ctx p t b st = (Except.error e, st3) := by
        simp [migratePost, hp, hmc]
      rw [hl]
      exact hpre2
    | ok u =>
      have hl : migratePost ctx p t b st =
          migrateVotes ctx t (getIDFromState st.state t "post" p.ID) p.UserVotes st3 := by
        simp [migratePost, hp, hmc]
      rw [hl]
      exact preservesNonEmpty_trans hpre2
        (migrateVotes_preserves ctx t (getIDFromState st.state t "post" p.ID) p.UserVotes st3)

theorem migrateTopic_preserves (ctx : MigCtx) (t b : String) (posts : List Post) :
    ∀ st : MigSt, preservesNonEmpty st.state (migrateTopic ctx t b posts st).2.2.state := by
  induction posts with
  | nil => intro st; exact preservesNonEmpty_refl _
  | cons p rest ih =>
    intro st
    rcases hmp : migratePost ctx p t b st with ⟨r, st1⟩
    have h1 : preservesNonEmpty st.state st1.state := by
      have h0 := migratePost_preserves ctx p t b st
      rw [hmp] at h0; exact h0
    cases r with
    | ok u =>
      have hl : (migrateTopic ctx t b (p :: rest) st).2.2 =
          (migrateTopic ctx t b rest st1).2.2 := by
        simp [migrateTopic, hmp]
      rw [hl]
      exact preservesNonEmpty_trans h1 (ih st1)
    | error e =>
      have hl : (migrateTopic ctx t b (p :: rest) st).2.2 =
          (migrateTopic ctx t b rest st1).2.2 := by
        simp [migrateTopic, hmp]
      rw [hl]
      exact preservesNonEmpty_trans h1 (ih st1)

theorem migrateTopic_counts (ctx : MigCtx) (t b : String) (posts : List Post) :
    ∀ st : MigSt,
      (migrateTopic ctx t b posts st).1 + (migrateTopic ctx t b posts st).2.1 = posts.length := by
  induction posts with
  | nil => intro st; simp [migrateTopic]
  | cons p rest ih =>
    intro st
    rcases hmp : migratePost ctx p t b st with ⟨r, st1⟩
    cases r with
    | ok u =>
      have := ih st1
      simp [migrateTopic, hmp]
      omega
    | error e =>
      have := ih st1
      simp [migrateTopic, hmp]
      omega

theorem migrateComments_error_append (ctx : MigCtx) (t pid : String) (cs cs2 : List Comment) :
    ∀ st e st', migrateComments ctx t pid cs st = (Except.error e, st') →
      migrateComments ctx t pid (cs ++ cs2) st = (Except.error e, st') := by
  induction cs with
  | nil =>
    intro st e st' h
    simp [migrateComments] at h
  | cons c rest ih =>
    intro st e st' h
    rw [List.cons_append]
    by_cases hc : getIDFromState st.state t "comment" c.ID ≠ ""
    · have hl : migrateComments ctx t pid (c :: rest) st = migrateComments ctx t pid rest st := by
        simp [migrateComments, hc]
      rw [hl] at h
      have hr : migrateComments ctx t pid (c :: (rest ++ cs2)) st =
          migrateComments ctx t pid (rest ++ cs2) st := by
        simp [migrateComments, hc]
      rw [hr]
      exact ih st e st' h
    · push_neg at hc
      rcases hcc : createComment ctx c pid st with ⟨r, st1⟩
      cases r with
      | error e0 =>
        have hl : migrateComments ctx t pid (c :: rest) st = (Except.error e0, st1) := by
          simp [migrateComments, hc, hcc]
        rw [hl] at h
        simp only [Prod.mk.injEq, Except.error.injEq] at h
        obtain ⟨h1, h2⟩ := h
        subst h1; subst h2
        simp [migrateComments, hc, hcc]
      | ok cid =>
        have hl : migrateComments ctx t pid (c :: rest) st =
            migrateComments ctx t pid rest
              { st1 with state := saveIDToState st1.state t "comment" c.ID cid } := by
          simp [migrateComments, hc, hcc]
        rw [hl] at h
        have hr : migrateComments ctx t pid (c :: (rest ++ cs2)) st =
            migrateComments ctx t pid (rest ++ cs2)
              { st1 with state := saveIDToState st1.state t "comment" c.ID cid } := by
          simp [migrateComments, hc, hcc]
        rw [hr]
        exact ih _ e st' h

theorem migrateVotes_error_append (ctx : MigCtx) (t pid : String) (vs vs2 : List Vote) :
    ∀ st e st', migrateVotes ctx t pid vs st = (Except.error e, st') →
      migrateVotes ctx t pid (vs ++ vs2) st = (Except.error e, st') := by
  induction vs with
  | nil =>
    intro st e st' h
    simp [migrateVotes] at h
  | cons v rest ih =>
    intro st e st' h
    rw [List.cons_append]
    by_cases hv : getIDFromState st.state t "vote" v.ID ≠ "" ∨ v.User = none
    · have hl : migrateVotes ctx t pid (v :: rest) st = migrateVotes ctx t pid rest st := by
        simp only [migrateVotes, if_pos hv]
      rw [hl] at h
      have hr : migrateVotes ctx t pid (v :: (rest ++ vs2)) st =
          migrateVotes ctx t pid (rest ++ vs2) st := by
        simp only [migrateVotes, if_pos hv]
      rw [hr]
      exact ih st e st' h
    · rcases hcv : createVote ctx v pid st with ⟨r, st1⟩
      cases r with
      | error e0 =>
        have hl : migrateVotes ctx t pid (v :: rest) st = (Except.error e0, st1) := by
          simp only [migrateVotes, if_neg hv, hcv]
        rw [hl] at h
        simp only [Prod.mk.injEq, Except.error.injEq] at h
        obtain ⟨h1, h2⟩ := h
        subst h1; subst h2
        simp only [migrateVotes, if_neg hv, hcv]
      | ok voteSuccess =>
        have hl : migrateVotes ctx t pid (v :: rest) st =
            migrateVotes ctx t pid rest
              { st1 with state := saveIDToState st1.state t "vote" v.ID voteSuccess } := by
          simp only [migrateVotes, if_neg hv, hcv]
        rw [hl] at h
        have hr : migrateVotes ctx t pid (v :: (rest ++ vs2)) st =
            migrateVotes ctx t pid (rest ++ vs2)
              { st1 with state := saveIDToState st1.state t "vote" v.ID voteSuccess } := by
          simp only [migrateVotes, if_neg hv, hcv]
        rw [hr]
        exact ih _ e st' h

/-- The destination returns non-empty identifiers for successful post
and comment creations. -/
def CannyNonEmptyIDs (o : CannyOracle) : Prop :=
  (∀ req id, o.createPost req = Except.ok id → id ≠ "") ∧
  (∀ req id, o.createComment req = Except.ok id → id ≠ "")

theorem createPost_ok_oracle (ctx : MigCtx) (p : Post) (b : String) (st : MigSt)
    (pid : String) (st' : MigSt) (h : createPost ctx p b st = (Except.ok pid, st')) :
    ∃ req, ctx.canny.createPost req = Except.ok pid := by
  unfold createPost at h
  rcases hr : resolveUser ctx p.Author "post" st with ⟨r, st1⟩
  rw [hr] at h
  cases r with
  | error e => simp at h
  | ok userID =>
    simp only [Prod.mk.injEq] at h
    exact ⟨_, h.1⟩

theorem createComment_ok_oracle (ctx : MigCtx) (c : Comment) (pid : String) (st : MigSt)
    (cid : String) (st' : MigSt) (h : createComment ctx c pid st = (Except.ok cid, st')) :
    ∃ req, ctx.canny.createComment req = Except.ok cid := by
  unfold createComment at h
  rcases hr : resolveUser ctx c.Author "comment" st with ⟨r, st1⟩
  rw [hr] at h
  cases r with
  | error e => simp at h
  | ok userID =>
    simp only [Prod.mk.injEq] at h
    exact ⟨_, h.1⟩

theorem createVote_ok_val (ctx : MigCtx) (v : Vote) (pid : String) (st : MigSt)
    (r : String) (st' : MigSt) (h : createVote ctx v pid st = (Except.ok r, st')) :
    r = "s" := by
  unfold createVote at h
  rcases hr : resolveUser ctx v.User "vote" st with ⟨r0, st1⟩
  rw [hr] at h
  cases r0 with
  | error e => simp at h
  | ok userID =>
    dsimp only at h
    rcases hv : ctx.canny.createVote ⟨pid, userID⟩ with e | u <;> rw [hv] at h
    · simp at h
    · simp only [Prod.mk.injEq, Except.ok.injEq] at h
      exact h.1.symm

/-- Every idempotence key of the post reads non-empty (or, for a vote,
the vote has no resolved user): the state in which a second
`migratePost` run does nothing. -/
def postLedgered (t : String) (p : Post) (σ : StateMap) : Prop :=
  getIDFromState σ t "post" p.ID ≠ "" ∧
  (∀ c ∈ p.Comments, getIDFromState σ t "comment" c.ID ≠ "") ∧
  (∀ v ∈ p.UserVotes, getIDFromState σ t "vote" v.ID ≠ "" ∨ v.User = none)

theorem preservesNonEmpty_getID {σ σ' : StateMap} (h : preservesNonEmpty σ σ')
    (t ty : String) (id : Int) (hne : getIDFromState σ t ty id ≠ "") :
    getIDFromState σ' t ty id = getIDFromState σ t ty id :=
  h t (formatKey ty id) hne

theorem postLedgered_mono {σ σ' : StateMap} (t : String) (p : Post)
    (hpre : preservesNonEmpty σ σ') (h : postLedgered t p σ) : postLedgered t p σ' := by
  obtain ⟨h1, h2, h3⟩ := h
  refine ⟨?_, ?_, ?_⟩
  · rw [preservesNonEmpty_getID hpre _ _ _ h1]; exact h1
  · intro c hc
    rw [preservesNonEmpty_getID hpre _ _ _ (h2 c hc)]; exact h2 c hc
  · intro v hv
    rcases h3 v hv with h | h
    · exact Or.inl (by rw [preservesNonEmpty_getID hpre _ _ _ h]; exact h)
    · exact Or.inr h

theorem migrateComments_skip (ctx : MigCtx) (t pid : String) (cs : List Comment) :
    ∀ st : MigSt, (∀ c ∈ cs, getIDFromState st.state t "comment" c.ID ≠ "") →
      migrateComments ctx t pid cs st = (Except.ok (), st) := by
  induction cs with
  | nil => intro st _; rfl
  | cons c rest ih =>
    intro st h
    have hc : getIDFromState st.state t "comment" c.ID ≠ "" := h c (List.mem_cons_self c rest)
    have hl : migrateComments ctx t pid (c :: rest) st = migrateComments ctx t pid rest st := by
      simp [migrateComments, hc]
    rw [hl]
    exact ih st (fun c' hc' => h c' (List.mem_cons_of_mem c hc'))

theorem migrateVotes_skip (ctx : MigCtx) (t pid : String) (vs : List Vote) :
    ∀ st : MigSt, (∀ v ∈ vs, getIDFromState st.state t "vote" v.ID ≠ "" ∨ v.User = none) →
      migrateVotes ctx t pid vs st = (Except.ok (), st) := by
  induction vs with
  | nil => intro st _; rfl
  | cons v rest ih =>
    intro st h
    have hv : getIDFromState st.state t "vote" v.ID ≠ "" ∨ v.User = none :=
      h v (List.mem_cons_self v rest)
    have hl : migrateVotes ctx t pid (v :: rest) st = migrateVotes ctx t pid rest st := by
      simp only [migrateVotes, if_pos hv]
    rw [hl]
    exact ih st (fun v' hv' => h v' (List.mem_cons_of_mem v hv'))

theorem migratePost_skip (ctx : MigCtx) (p : Post) (t b : String) (st : MigSt)
    (h : postLedgered t p st.state) :
    migratePost ctx p t b st = (Except.ok (), st) := by
  obtain ⟨h1, h2, h3⟩ := h
  have hl : migratePost ctx p t b st =
      (match migrateComments ctx t (getIDFromState st.state t "post" p.ID) p.Comments st with
       | (Except.error e, st2) => (Except.error e, st2)
       | (Except.ok _, st2) =>
         migrateVotes ctx t (getIDFromState st.state t "post" p.ID) p.UserVotes st2) := by
    simp [migratePost, h1]
  rw [hl, migrateComments_skip ctx t _ p.Comments st h2]
  exact migrateVotes_skip ctx t _ p.UserVotes st h3

theorem migrateComments_ok_ledgered (ctx : MigCtx) (t pid : String)
    (hids : ∀ req id, ctx.canny.createComment req = Except.ok id → id ≠ "")
    (cs : List Comment) :
    ∀ st u st', migrateComments ctx t pid cs st = (Except.ok u, st') →
      ∀ c ∈ cs, getIDFromState st'.state t "comment" c.ID ≠ "" := by
  induction cs with
  | nil => intro st u st' _ c hc; exact absurd hc (List.not_mem_nil c)
  | cons c0 rest ih =>
    intro st u st' h c hc
    by_cases hsk : getIDFromState st.state t "comment" c0.ID ≠ ""
    · have hl : migrateComments ctx t pid (c0 :: rest) st = migrateComments ctx t pid rest st := by
        simp [migrateComments, hsk]
      rw [hl] at h
      rcases List.mem_cons.mp hc with hceq | hcr
      · subst hceq
        have hpre : preservesNonEmpty st.state st'.state := by
          have h0 := migrateComments_preserves ctx t pid rest st
          rw [h] at h0; exact h0
        rw [preservesNonEmpty_getID hpre _ _ _ hsk]
        exact hsk
      · exact ih st u st' h c hcr
    · push_neg at hsk
      rcases hcc : createComment ctx c0 pid st with ⟨r, st1⟩
      cases r with
      | error e =>
        have hl : migrateComments ctx t pid (c0 :: rest) st = (Except.error e, st1) := by
          simp [migrateComments, hsk, hcc]
        rw [hl] at h
        simp at h
      | ok cid =>
        have hcid : cid ≠ "" := by
          obtain ⟨req, hreq⟩ := createComment_ok_oracle ctx c0 pid st cid st1 hcc
          exact hids req cid hreq
        have hl : migrateComments ctx t pid (c0 :: rest) st =
            migrateComments ctx t pid rest
              { st1 with state := saveIDToState st1.state t "comment" c0.ID cid } := by
          simp [migrateComments, hsk, hcc]
        rw [hl] at h
        rcases List.mem_cons.mp hc with hceq | hcr
        · subst hceq
          have hcell : getIDFromState
              (saveIDToState st1.state t "comment" c.ID cid) t "comment" c.ID = cid := by
            unfold getIDFromState
            exact stateValue_save_self st1.state t "comment" c.ID cid
          have hpre : preservesNonEmpty (saveIDToState st1.state t "comment" c.ID cid)
              st'.state := by
            have h0 := migrateComments_preserves ctx t pid rest
              { st1 with state := saveIDToState st1.state t "comment" c.ID cid }
            rw [h] at h0; exact h0
          have hne : getIDFromState
              (saveIDToState st1.state t "comment" c.ID cid) t "comment" c.ID ≠ "" := by
            rw [hcell]; exact hcid
          rw [preservesNonEmpty_getID hpre _ _ _ hne]
          exact hne
        · exact ih _ u st' h c hcr

theorem migrateVotes_ok_ledgered (ctx : MigCtx) (t pid : String) (vs : List Vote) :
    ∀ st u st', migrateVotes ctx t pid vs st = (Except.ok u, st') →
      ∀ v ∈ vs, getIDFromState st'.state t "vote" v.ID ≠ "" ∨ v.User = none := by
  induction vs with
  | nil => intro st u st' _ v hv; exact absurd hv (List.not_mem_nil v)
  | cons v0 rest ih =>
    intro st u st' h v hv
    by_cases hsk : getIDFromState st.state t "vote" v0.ID ≠ "" ∨ v0.User = none
    · have hl : migrateVotes ctx t pid (v0 :: rest) st = migrateVotes ctx t pid rest st := by
        simp only [migrateVotes, if_pos hsk]
      rw [hl] at h
      rcases List.mem_cons.mp hv with hveq | hvr
      · subst hveq
        rcases hsk with hne | hnone
        · have hpre : preservesNonEmpty st.state st'.state := by
            have h0 := migrateVotes_preserves ctx t pid rest st
            rw [h] at h0; exact h0
          exact Or.inl (by rw [preservesNonEmpty_getID hpre _ _ _ hne]; exact hne)
        · exact Or.inr hnone
      · exact ih st u st' h v hvr
    · rcases hcv : createVote ctx v0 pid st with ⟨r, st1⟩
      cases r with
      | error e =>
        have hl : migrateVotes ctx t pid (v0 :: rest) st = (Except.error e, st1) := by
          simp only [migrateVotes, if_neg hsk, hcv]
        rw [hl] at h
        simp at h
      | ok voteSuccess =>
        have hvs : voteSuccess = "s" := createVote_ok_val ctx v0 pid st voteSuccess st1 hcv
        have hl : migrateVotes ctx t pid (v0 :: rest) st =
            migrateVotes ctx t pid rest
              { st1 with state := saveIDToState st1.state t "vote" v0.ID voteSuccess } := by
          simp only [migrateVotes, if_neg hsk, hcv]
        rw [hl] at h
        rcases List.mem_cons.mp hv with hveq | hvr
        · subst hveq
          have hcell : getIDFromState
              (saveIDToState st1.state t "vote" v.ID voteSuccess) t "vote" v.ID = voteSuccess := by
            unfold getIDFromState
            exact stateValue_save_self st1.state t "vote" v.ID voteSuccess
          have hne : getIDFromState
              (saveIDToState st1.state t "vote" v.ID voteSuccess) t "vote" v.ID ≠ "" := by
            rw [hcell, hvs]
            intro hcontra
            exact absurd hcontra (by simp)
          have hpre : preservesNonEmpty (saveIDToState st1.state t "vote" v.ID voteSuccess)
              st'.state := by
            have h0 := migrateVotes_preserves ctx t pid rest
              { st1 with state := saveIDToState st1.state t "vote" v.ID voteSuccess }
            rw [h] at h0; exact h0
          refine Or.inl ?_
          rw [preservesNonEmpty_getID hpre _ _ _ hne]
          exact hne
        · exact ih _ u st' h v hvr

theorem migratePost_ok_ledgered (ctx : MigCtx) (hids : CannyNonEmptyIDs ctx.canny)
    (p : Post) (t b : String) (st : MigSt) (u : Unit) (st' : MigSt)
    (h : migratePost ctx p t b st = (Except.ok u, st')) :
    postLedgered t p st'.state := by
  by_cases hp : getIDFromState st.state t "post" p.ID = ""
  · rcases hcp : createPost ctx p b st with ⟨r, st1⟩
    cases r with
    | error e =>
      have hl : migratePost ctx p t b st = (Except.error e, st1) := by
        simp [migratePost, hp, hcp]
      rw [hl] at h; simp at h
    | ok pid =>
      have hpid : pid ≠ "" := by
        obtain ⟨req, hreq⟩ := createPost_ok_oracle ctx p b st pid st1 hcp
        exact hids.1 req pid hreq
      rcases hmc : migrateComments ctx t pid p.Comments
          { st1 with state := saveIDToState st1.state t "post" p.ID pid } with ⟨rc, st3⟩
      cases rc with
      | error e =>
        have hl : migratePost ctx p t b st = (Except.error e, st3) := by
          simp [migratePost, hp, hcp, hmc]
        rw [hl] at h; simp at h
      | ok u2 =>
        rcases hmv : migrateVotes ctx t pid p.UserVotes st3 with ⟨rv, st4⟩
        cases rv with
        | error e =>
          have hl : migratePost ctx p t b st = (Except.error e, st4) := by
            simp [migratePost, hp, hcp, hmc, hmv]
          rw [hl] at h; simp at h
        | ok u3 =>
          have hl : migratePost ctx p t b st = (Except.ok u3, st4) := by
            simp [migratePost, hp, hcp, hmc, hmv]
          rw [hl] at h
          simp only [Prod.mk.injEq, Except.ok.injEq] at h
          obtain ⟨_, h4⟩ := h
          subst h4
          have hpre1 : preservesNonEmpty (saveIDToState st1.state t "post" p.ID pid)
              st3.state := by
            have h0 := migrateComments_preserves ctx t pid p.Comments
              { st1 with state := saveIDToState st1.state t "post" p.ID pid }
            rw [hmc] at h0; exact h0
          have hpre2 : preservesNonEmpty st3.state st4.state := by
            have h0 := migrateVotes_preserves ctx t pid p.UserVotes st3
            rw [hmv] at h0; exact h0
          refine ⟨?_, ?_, ?_⟩
          · have hne : getIDFromState (saveIDToState st1.state t "post" p.ID pid)
                t "post" p.ID ≠ "" := by
              have hcell : getIDFromState (saveIDToState st1.state t "post" p.ID pid)
                  t "post" p.ID = pid := stateValue_save_self st1.state t "post" p.ID pid
              rw [hcell]; exact hpid
            have h3 : getIDFromState st3.state t "post" p.ID ≠ "" := by
              rw [preservesNonEmpty_getID hpre1 _ _ _ hne]; exact hne
            rw [preservesNonEmpty_getID hpre2 _ _ _ h3]; exact h3
          · intro c hc
            have h3 := migrateComments_ok_ledgered ctx t pid hids.2 p.Comments _ u2 st3 hmc c hc
            rw [preservesNonEmpty_getID hpre2 _ _ _ h3]; exact h3
          · exact migrateVotes_ok_ledgered ctx t pid p.UserVotes st3 u3 st4 hmv
  · rcases hmc : migrateComments ctx t (getIDFromState st.state t "post" p.ID)
        p.Comments st with ⟨rc, st3⟩
    cases rc with
    | error e =>
      have hl : migratePost ctx p t b st = (Except.error e, st3) := by
        simp [migratePost, hp, hmc]
      rw [hl] at h; simp at h
    | ok u2 =>
      rcases hmv : migrateVotes ctx t (getIDFromState st.state t "post" p.ID)
          p.UserVotes st3 with ⟨rv, st4⟩
      cases rv with
      | error e =>
        have hl : migratePost ctx p t b st = (Except.error e, st4) := by
          simp [migratePost, hp, hmc, hmv]
        rw [hl] at h; simp at h
      | ok u3 =>
        have hl : migratePost ctx p t b st = (Except.ok u3, st4) := by
          simp [migratePost, hp, hmc, hmv]
        rw [hl] at h
        simp only [Prod.mk.injEq, Except.ok.injEq] at h
        obtain ⟨_, h4⟩ := h
        subst h4
        have hpre1 : preservesNonEmpty st.state st3.state := by
          have h0 := migrateComments_preserves ctx t
            (getIDFromState st.state t "post" p.ID) p.Comments st
          rw [hmc] at h0; exact h0
        have hpre2 : preservesNonEmpty st3.state st4.state := by
          have h0 := migrateVotes_preserves ctx t
            (getIDFromState st.state t "post" p.ID) p.UserVotes st3
          rw [hmv] at h0; exact h0
        refine ⟨?_, ?_, ?_⟩
        · have h3 : getIDFromState st3.state t "post" p.ID ≠ "" := by
            rw [preservesNonEmpty_getID hpre1 _ _ _ hp]; exact hp
          rw [preservesNonEmpty_getID hpre2 _ _ _ h3]; exact h3
        · intro c hc
          have h3 := migrateComments_ok_ledgered ctx t
            (getIDFromState st.state t "post" p.ID) hids.2 p.Comments _ u2 st3 hmc c hc
          rw [preservesNonEmpty_getID hpre2 _ _ _ h3]; exact h3
        · exact migrateVotes_ok_ledgered ctx t
            (getIDFromState st.state t "post" p.ID) p.UserVotes st3 u3 st4 hmv

theorem migrateTopic_ok_ledgered (ctx : MigCtx) (hids : CannyNonEmptyIDs ctx.canny)
    (t b : String) (posts : List Post) :
    ∀ st : MigSt, (migrateTopic ctx t b posts st).2.1 = 0 →
      ∀ p ∈ posts, postLedgered t p (migrateTopic ctx t b posts st).2.2.state := by
  induction posts with
  | nil => intro st _ p hp; exact absurd hp (List.not_mem_nil p)
  | cons p0 rest ih =>
    intro st hfail p hp
    rcases hmp : migratePost ctx p0 t b st with ⟨r, st1⟩
    cases r with
    | error e =>
      exfalso
      have hl : (migrateTopic ctx t b (p0 :: rest) st).2.1 =
          (migrateTopic ctx t b rest st1).2.1 + 1 := by
        simp [migrateTopic, hmp]
      rw [hl] at hfail
      omega
    | ok u =>
      have hl1 : (migrateTopic ctx t b (p0 :: rest) st).2.1 =
          (migrateTopic ctx t b rest st1).2.1 := by
        simp [migrateTopic, hmp]
      have hl2 : (migrateTopic ctx t b (p0 :: rest) st).2.2 =
          (migrateTopic ctx t b rest st1).2.2 := by
        simp [migrateTopic, hmp]
      rw [hl1] at hfail
      rw [hl2]
      rcases List.mem_cons.mp hp with hpeq | hpr
      · subst hpeq
        have hled : postLedgered t p st1.state :=
          migratePost_ok_ledgered ctx hids p t b st u st1 hmp
        exact postLedgered_mono t p (migrateTopic_preserves ctx t b rest st1) hled
      · exact ih st1 hfail p hpr

theorem migrateTopic_skip (ctx : MigCtx) (t b : String) (posts : List Post) :
    ∀ st : MigSt, (∀ p ∈ posts, postLedgered t p st.state) →
      migrateTopic ctx t b posts st = (posts.length, 0, st) := by
  induction posts with
  | nil => intro st _; rfl
  | cons p rest ih =>
    intro st h
    have hmp : migratePost ctx p t b st = (Except.ok (), st) :=
      migratePost_skip ctx p t b st (h p (List.mem_cons_self p rest))
    have hrest : migrateTopic ctx t b rest st = (rest.length, 0, st) :=
      ih st (fun p' hp' => h p' (List.mem_cons_of_mem p hp'))
    simp [migrateTopic, hmp, hrest]

/-- Total number of posts across a run's topics. -/
def totalPosts (run : List (String × String × List Post)) : Nat :=
  (run.map (fun tbp => tbp.2.2.length)).sum

theorem migrateRun_preserves (ctx : MigCtx) (run : List (String × String × List Post)) :
    ∀ st : MigSt, preservesNonEmpty st.state (migrateRun ctx run st).2.2.state := by
  induction run with
  | nil => intro st; exact preservesNonEmpty_refl _
  | cons tbp rest ih =>
    intro st
    obtain ⟨t, b, posts⟩ := tbp
    have hl : (migrateRun ctx ((t, b, posts) :: rest) st).2.2 =
        (migrateRun ctx rest (migrateTopic ctx t b posts st).2.2).2.2 := by
      simp [migrateRun]
    rw [hl]
    exact preservesNonEmpty_trans (migrateTopic_preserves ctx t b posts st)
      (ih (migrateTopic ctx t b posts st).2.2)

theorem migrateRun_ok_ledgered (ctx : MigCtx) (hids : CannyNonEmptyIDs ctx.canny)
    (run : List (String × String × List Post)) :
    ∀ st : MigSt, (migrateRun ctx run st).2.1 = 0 →
      ∀ tbp ∈ run, ∀ p ∈ tbp.2.2,
        postLedgered tbp.1 p (migrateRun ctx run st).2.2.state := by
  induction run with
  | nil => intro st _ tbp htbp; exact absurd htbp (List.not_mem_nil tbp)
  | cons tbp0 rest ih =>
    intro st hfail tbp htbp p hp
    obtain ⟨t, b, posts⟩ := tbp0
    have hl1 : (migrateRun ctx ((t, b, posts) :: rest) st).2.1 =
        (migrateTopic ctx t b posts st).2.1 +
          (migrateRun ctx rest (migrateTopic ctx t b posts st).2.2).2.1 := by
      simp [migrateRun]
    have hl2 : (migrateRun ctx ((t, b, posts) :: rest) st).2.2 =
        (migrateRun ctx rest (migrateTopic ctx t b posts st).2.2).2.2 := by
      simp [migrateRun]
    rw [hl1] at hfail
    rw [hl2]
    have htf : (migrateTopic ctx t b posts st).2.1 = 0 := by omega
    have hrf : (migrateRun ctx rest (migrateTopic ctx t b posts st).2.2).2.1 = 0 := by omega
    rcases List.mem_cons.mp htbp with heq | hrest
    · subst heq
      have hled : postLedgered t p (migrateTopic ctx t b posts st).2.2.state :=
        migrateTopic_ok_ledgered ctx hids t b posts st htf p hp
      exact postLedgered_mono t p
        (migrateRun_preserves ctx rest (migrateTopic ctx t b posts st).2.2) hled
    · exact ih (migrateTopic ctx t b posts st).2.2 hrf tbp hrest p hp

theorem migrateRun_skip (ctx : MigCtx) (run : List (String × String × List Post)) :
    ∀ st : MigSt, (∀ tbp ∈ run, ∀ p ∈ tbp.2.2, postLedgered tbp.1 p st.state) →
      migrateRun ctx run st = (totalPosts run, 0, st) := by
  induction run with
  | nil => intro st _; rfl
  | cons tbp0 rest ih =>
    intro st h
    obtain ⟨t, b, posts⟩ := tbp0
    have ht : migrateTopic ctx t b posts st = (posts.length, 0, st) :=
      migrateTopic_skip ctx t b posts st
        (fun p hp => h (t, b, posts) (List.mem_cons_self _ rest) p hp)
    have hr : migrateRun ctx rest st = (totalPosts rest, 0, st) :=
      ih st (fun tbp htbp p hp => h tbp (List.mem_cons_of_mem _ htbp) p hp)
    simp [migrateRun, ht, hr, totalPosts]

theorem pagedFetchLoop_concat {α : Type} (last : PageResp α) (hlastPage : last.nextPage = "") :
    ∀ (front : List (PageResp α)) (acc : List α),
      (∀ p ∈ front, p.items.isSome ∧ p.nextPage ≠ "") →
      pagedFetchLoop ((front ++ [last]).map fun p => HttpResp.mk 200 (some p)) acc =
        Except.ok (acc ++ ((front ++ [last]).map fun p => p.items.getD []).flatten) := by
  intro front
  induction front with
  | nil =>
    intro acc _
    simp [pagedFetchLoop, clientGet, hlastPage]
  | cons p front' ih =>
    intro acc hfront
    obtain ⟨hpi, hpn⟩ := hfront p (List.mem_cons_self p front')
    rcases Option.isSome_iff_exists.mp hpi with ⟨l, hl⟩
    have step : pagedFetchLoop (((p :: front') ++ [last]).map fun q => HttpResp.mk 200 (some q))
        acc =
        pagedFetchLoop ((front' ++ [last]).map fun q => HttpResp.mk 200 (some q)) (acc ++ l) := by
      simp [pagedFetchLoop, clientGet, hl, hpn]
    rw [step, ih (acc ++ l) (fun q hq => hfront q (List.mem_cons_of_mem p hq))]
    simp [hl, List.append_assoc]

/-- A page response the fetch loop traverses and continues past:
status 200, decodable, items present, non-empty cursor. -/
def okRespShape {α : Type} (r : HttpResp (PageResp α)) : Prop :=
  r.status = 200 ∧ ∃ p, r.body = some p ∧ p.items.isSome ∧ p.nextPage ≠ ""

/-- A page response the spec calls out as an error: non-success
transport status, or a decoded page with a nil item array alongside a
non-empty next-page cursor. -/
def badRespShape {α : Type} (r : HttpResp (PageResp α)) : Prop :=
  r.status ≠ 200 ∨ ∃ p, r.body = some p ∧ p.items = none ∧ p.nextPage ≠ ""

theorem pagedFetchLoop_error {α : Type} (bad : HttpResp (PageResp α))
    (hbad : badRespShape bad) (rest : List (HttpResp (PageResp α))) :
    ∀ (good : List (HttpResp (PageResp α))) (acc : List α),
      (∀ r ∈ good, okRespShape r) →
      ∃ e, pagedFetchLoop (good ++ bad :: rest) acc = Except.error e := by
  intro good
  induction good with
  | nil =>
    intro acc _
    by_cases hs : bad.status = 200
    · rcases hbad with hs' | ⟨p, hb, hi, hn⟩
      · exact absurd hs hs'
      · refine ⟨FetchErr.malformed, ?_⟩
        simp [pagedFetchLoop, clientGet, hs, hb, hi, hn]
    · refine ⟨FetchErr.getFailed (GetErr.badStatus bad.status), ?_⟩
      simp [pagedFetchLoop, clientGet, hs]
  | cons r good' ih =>
    intro acc hgood
    obtain ⟨hs, p, hb, hi, hn⟩ := hgood r (List.mem_cons_self r good')
    rcases Option.isSome_iff_exists.mp hi with ⟨l, hl⟩
    have step : pagedFetchLoop ((r :: good') ++ bad :: rest) acc =
        pagedFetchLoop (good' ++ bad :: rest) (acc ++ l) := by
      simp [pagedFetchLoop, clientGet, hs, hb, hl, hn]
    rw [step]
    exact ih (acc ++ l) (fun q hq => hgood q (List.mem_cons_of_mem r hq))

theorem postsLoop_error (bad : HttpResp (PageResp Post))
    (hbad : badRespShape bad) (rest : List (HttpResp (PageResp Post))) :
    ∀ (good : List (HttpResp (PageResp Post))) (acc : List Post),
      (∀ r ∈ good, okRespShape r) →
      ∃ e, (postsLoop (good ++ bad :: rest) acc).2 = some e := by
  intro good
  induction good with
  | nil =>
    intro acc _
    by_cases hs : bad.status = 200
    · rcases hbad with hs' | ⟨p, hb, hi, hn⟩
      · exact absurd hs hs'
      · refine ⟨FetchErr.malformed, ?_⟩
        simp [postsLoop, clientGet, hs, hb, hi, hn]
    · refine ⟨FetchErr.getFailed (GetErr.badStatus bad.status), ?_⟩
      simp [postsLoop, clientGet, hs]
  | cons r good' ih =>
    intro acc hgood
    obtain ⟨hs, p, hb, hi, hn⟩ := hgood r (List.mem_cons_self r good')
    rcases Option.isSome_iff_exists.mp hi with ⟨l, hl⟩
    have step : postsLoop ((r :: good') ++ bad :: rest) acc =
        postsLoop (good' ++ bad :: rest) (acc ++ l) := by
      simp [postsLoop, clientGet, hs, hb, hl, hn]
    rw [step]
    exact ih (acc ++ l) (fun q hq => hgood q (List.mem_cons_of_mem r hq))

theorem splitBatchesGo_join (fuel : Nat) :
    ∀ ids : List Int, (splitBatchesGo fuel ids).flatten = ids := by
  induction fuel with
  | zero => intro ids; simp [splitBatchesGo]
  | succ n ih =>
    intro ids
    by_cases h : 100 < ids.length
    · simp [splitBatchesGo, h, ih]
    · simp [splitBatchesGo, h]

theorem splitBatchesGo_ne_nil (fuel : Nat) (ids : List Int) :
    splitBatchesGo fuel ids ≠ [] := by
  cases fuel with
  | zero => simp [splitBatchesGo]
  | succ n =>
    by_cases h : 100 < ids.length <;> simp [splitBatchesGo, h]

theorem splitBatchesGo_le (fuel : Nat) :
    ∀ ids : List Int, ids.length ≤ fuel → ∀ b ∈ splitBatchesGo fuel ids, b.length ≤ 100 := by
  induction fuel with
  | zero =>
    intro ids hlen b hb
    simp [splitBatchesGo] at hb
    subst hb
    omega
  | succ n ih =>
    intro ids hlen b hb
    by_cases h : 100 < ids.length
    · simp only [splitBatchesGo, if_pos h, List.mem_cons] at hb
      rcases hb with hb | hb
      · subst hb; simp
      · exact ih (ids.drop 100) (by simp; omega) b hb
    · simp only [splitBatchesGo, if_neg h, List.mem_singleton] at hb
      subst hb
      omega

theorem splitBatchesGo_dropLast (fuel : Nat) :
    ∀ ids : List Int, ∀ b ∈ (splitBatchesGo fuel ids).dropLast, b.length = 100 := by
  induction fuel with
  | zero => intro ids b hb; simp [splitBatchesGo] at hb
  | succ n ih =>
    intro ids b hb
    by_cases h : 100 < ids.length
    · rw [splitBatchesGo, if_pos h,
        List.dropLast_cons_of_ne_nil (splitBatchesGo_ne_nil n (ids.drop 100))] at hb
      rcases List.mem_cons.mp hb with hb | hb
      · subst hb; simp; omega
      · exact ih (ids.drop 100) b hb
    · rw [splitBatchesGo, if_neg h] at hb
      simp at hb

theorem splitBatchesGo_count (fuel : Nat) :
    ∀ ids : List Int, 1 ≤ ids.length → ids.length ≤ fuel →
      (splitBatchesGo fuel ids).length = (ids.length + 99) / 100 := by
  induction fuel with
  | zero => intro ids h1 h2; exfalso; omega
  | succ n ih =>
    intro ids h1 h2
    by_cases h : 100 < ids.length
    · have ihh := ih (ids.drop 100) (by simp; omega) (by simp; omega)
      rw [splitBatchesGo, if_pos h, List.length_cons, ihh]
      simp only [List.length_drop]
      omega
    · rw [splitBatchesGo, if_neg h]
      simp only [List.length_singleton]
      omega

/-- The cache resolves `id` to a loaded (non-sentinel) user record with
that id. -/
def cacheHasUserFor (users : UserCache) (id : Int) : Prop :=
  ∃ w, alookup users id = some (some w) ∧ w.ID = id

theorem cacheHasUserFor_upsert (users : UserCache) (id : Int) (x : User)
    (h : cacheHasUserFor users id) :
    cacheHasUserFor (upsert users x.ID (some x)) id := by
  by_cases hx : x.ID = id
  · exact ⟨x, by rw [hx, alookup_upsert_self], hx⟩
  · obtain ⟨w, hw, hwid⟩ := h
    exact ⟨w, by rw [alookup_upsert_other _ _ _ _ hx]; exact hw, hwid⟩

theorem cacheHasUserFor_foldl (returned : List User) :
    ∀ users : UserCache, ∀ id : Int, cacheHasUserFor users id →
      cacheHasUserFor (returned.foldl (fun us u => upsert us u.ID (some u)) users) id := by
  induction returned with
  | nil => intro users id h; exact h
  | cons u rest ih =>
    intro users id h
    exact ih (upsert users u.ID (some u)) id (cacheHasUserFor_upsert users id u h)

theorem cacheHasUserFor_foldl_mem (returned : List User) :
    ∀ users : UserCache, ∀ u ∈ returned,
      cacheHasUserFor (returned.foldl (fun us x => upsert us x.ID (some x)) users) u.ID := by
  induction returned with
  | nil => intro users u hu; exact absurd hu (List.not_mem_nil u)
  | cons u0 rest ih =>
    intro users u hu
    rcases List.mem_cons.mp hu with heq | hr
    · subst heq
      exact cacheHasUserFor_foldl rest (upsert users u.ID (some u)) u.ID
        ⟨u, alookup_upsert_self users u.ID (some u), rfl⟩
    · exact ih (upsert users u0.ID (some u0)) u hr

theorem loadUsersLoop_keeps (batchResp : List Int → HttpResp (List User)) :
    ∀ (batches : List (List Int)) (users users' : UserCache),
      loadUsersLoop batchResp batches users = Except.ok users' →
      ∀ id, cacheHasUserFor users id → cacheHasUserFor users' id := by
  intro batches
  induction batches with
  | nil =>
    intro users users' h id hc
    simp only [loadUsersLoop, Except.ok.injEq] at h
    rw [← h]; exact hc
  | cons b rest ih =>
    intro users users' h id hc
    rw [loadUsersLoop] at h
    rcases hg : clientGet (batchResp b) with e | returned <;> rw [hg] at h
    · simp at h
    · exact ih _ users' h id (cacheHasUserFor_foldl returned users id hc)

theorem loadUsersLoop_mem (batchResp : List Int → HttpResp (List User)) :
    ∀ (batches : List (List Int)) (users users' : UserCache),
      loadUsersLoop batchResp batches users = Except.ok users' →
      ∀ b ∈ batches, ∀ returned, clientGet (batchResp b) = Except.ok returned →
        ∀ u ∈ returned, cacheHasUserFor users' u.ID := by
  intro batches
  induction batches with
  | nil => intro users users' _ b hb; exact absurd hb (List.not_mem_nil b)
  | cons b0 rest ih =>
    intro users users' h b hb returned hret u hu
    rw [loadUsersLoop] at h
    rcases hg : clientGet (batchResp b0) with e | ret0 <;> rw [hg] at h
    · simp at h
    · rcases List.mem_cons.mp hb with heq | hr
      · subst heq
        rw [hret] at hg
        have : ret0 = returned := by
          injection hg with hh
          exact hh.symm
        subst this
        exact loadUsersLoop_keeps batchResp rest _ users' h u.ID
          (cacheHasUserFor_foldl_mem ret0 users u hu)
      · exact ih _ users' h b hr returned hret u hu

theorem alookup_isSome_upsert {κ ν : Type} [DecidableEq κ] (m : List (κ × ν)) (k k' : κ)
    (v : ν) (h : (alookup m k').isSome) : (alookup (upsert m k v) k').isSome := by
  by_cases hk : k = k'
  · rw [hk, alookup_upsert_self]; rfl
  · rw [alookup_upsert_other _ _ _ _ hk]; exact h

theorem loadUsersLoop_keyPresent (batchResp : List Int → HttpResp (List User)) :
    ∀ (batches : List (List Int)) (users users' : UserCache),
      loadUsersLoop batchResp batches users = Except.ok users' →
      ∀ id, (alookup users id).isSome → (alookup users' id).isSome := by
  intro batches
  induction batches with
  | nil =>
    intro users users' h id hc
    simp only [loadUsersLoop, Except.ok.injEq] at h
    rw [← h]; exact hc
  | cons b rest ih =>
    intro users users' h id hc
    rw [loadUsersLoop] at h
    rcases hg : clientGet (batchResp b) with e | returned <;> rw [hg] at h
    · simp at h
    · refine ih _ users' h id ?_
      clear h ih hg
      induction returned generalizing users with
      | nil => exact hc
      | cons u rest' ih' =>
        exact ih' (upsert users u.ID (some u))
          (alookup_isSome_upsert users u.ID id (some u) hc)

theorem collectFold_spec (stream : List Int) :
    ∀ (users : UserCache) (toLoad : List Int),
      (∀ id ∈ toLoad, (alookup users id).isSome) → toLoad.Nodup →
      (∀ id ∈ (stream.foldl collectUsersStep (users, toLoad)).2,
         (alookup (stream.foldl collectUsersStep (users, toLoad)).1 id).isSome) ∧
      (stream.foldl collectUsersStep (users, toLoad)).2.Nodup ∧
      (∀ id, (alookup users id).isSome →
         (alookup (stream.foldl collectUsersStep (users, toLoad)).1 id).isSome) ∧
      (∀ id ∈ (stream.foldl collectUsersStep (users, toLoad)).2,
         id ∈ toLoad ∨ alookup users id = none) := by
  induction stream with
  | nil =>
    intro users toLoad hsub hnd
    exact ⟨hsub, hnd, fun id h => h, fun id h => Or.inl h⟩
  | cons x rest ih =>
    intro users toLoad hsub hnd
    rcases hx : alookup users x with _ | w
    · -- x is new: sentinel write plus pending append
      have hstep : collectUsersStep (users, toLoad) x =
          (upsert users x none, toLoad ++ [x]) := by
        simp [collectUsersStep, hx]
      have hxnotin : x ∉ toLoad := by
        intro hmem
        have := hsub x hmem
        rw [hx] at this
        simp at this
      have hsub' : ∀ id ∈ toLoad ++ [x], (alookup (upsert users x none) id).isSome := by
        intro id hid
        rcases List.mem_append.mp hid with hid | hid
        · exact alookup_isSome_upsert users x id none (hsub id hid)
        · rw [List.mem_singleton] at hid
          subst hid
          rw [alookup_upsert_self]; rfl
      have hnd' : (toLoad ++ [x]).Nodup := by
        rw [List.nodup_append]
        exact ⟨hnd, List.nodup_singleton x, by simpa using hxnotin⟩
      have hmain := ih (upsert users x none) (toLoad ++ [x]) hsub' hnd'
      rw [List.foldl_cons, hstep]
      refine ⟨hmain.1, hmain.2.1, ?_, ?_⟩
      · intro id h
        exact hmain.2.2.1 id (alookup_isSome_upsert users x id none h)
      · intro id h
        rcases hmain.2.2.2 id h with hid | hid
        · rcases List.mem_append.mp hid with hid | hid
          · exact Or.inl hid
          · rw [List.mem_singleton] at hid
            subst hid
            exact Or.inr hx
        · by_cases hxid : x = id
          · subst hxid
            exact Or.inr hx
          · rw [alookup_upsert_other _ _ _ _ hxid] at hid
            exact Or.inr hid
    · -- x already a key: nothing changes
      have hstep : collectUsersStep (users, toLoad) x = (users, toLoad) := by
        simp [collectUsersStep, hx]
      rw [List.foldl_cons, hstep]
      exact ih users toLoad hsub hnd

theorem upsert_of_not_key {κ ν : Type} [DecidableEq κ] (m : List (κ × ν)) (k : κ) (v : ν)
    (h : k ∉ m.map Prod.fst) : upsert m k v = m ++ [(k, v)] := by
  induction m with
  | nil => rfl
  | cons hd tl ih =>
    obtain ⟨k0, v0⟩ := hd
    simp only [List.map_cons, List.mem_cons] at h
    push_neg at h
    rw [upsert, if_neg (fun hh => h.1 hh.symm)]
    rw [List.cons_append, ih h.2]

theorem unmarshalFields_roundtrip :
    ∀ (m acc : List (String × String)),
      (m.map Prod.fst).Nodup →
      (∀ k ∈ m.map Prod.fst, k ∉ acc.map Prod.fst) →
      unmarshalFields (m.map fun kv => (kv.1, Json.str kv.2)) acc = some (acc ++ m) := by
  intro m
  induction m with
  | nil => intro acc _ _; simp [unmarshalFields]
  | cons kv tl ih =>
    intro acc hnd hdisj
    obtain ⟨k, v⟩ := kv
    simp only [List.map_cons, List.nodup_cons] at hnd
    have hkacc : k ∉ acc.map Prod.fst := hdisj k (by simp)
    rw [List.map_cons, unmarshalFields, upsert_of_not_key acc k v hkacc]
    have hdisj' : ∀ k' ∈ tl.map Prod.fst, k' ∉ (acc ++ [(k, v)]).map Prod.fst := by
      intro k' hk'
      simp only [List.map_append, List.mem_append, List.map_cons]
      push_neg
      refine ⟨hdisj k' (by simp [hk']), ?_⟩
      simp only [List.map_nil, List.mem_singleton]
      intro heq
      subst heq
      exact hnd.1 hk'
    rw [ih (acc ++ [(k, v)]) hnd.2 hdisj']
    simp

theorem unmarshalInner_marshalInner (m : List (String × String))
    (hnd : (m.map Prod.fst).Nodup) : unmarshalInner (marshalInner m) = some m := by
  have h := unmarshalFields_roundtrip m [] hnd (by simp)
  simpa [marshalInner, unmarshalInner] using h

theorem unmarshalStateFields_roundtrip :
    ∀ (s acc : StateMap),
      (s.map Prod.fst).Nodup →
      (∀ tm ∈ s, (tm.2.map Prod.fst).Nodup) →
      (∀ k ∈ s.map Prod.fst, k ∉ acc.map Prod.fst) →
      unmarshalStateFields (s.map fun tm => (tm.1, marshalInner tm.2)) acc = some (acc ++ s) := by
  intro s
  induction s with
  | nil => intro acc _ _ _; simp [unmarshalStateFields]
  | cons tm tl ih =>
    intro acc hnd hinner hdisj
    obtain ⟨t, m⟩ := tm
    simp only [List.map_cons, List.nodup_cons] at hnd
    have htacc : t ∉ acc.map Prod.fst := hdisj t (by simp)
    rw [List.map_cons, unmarshalStateFields,
      unmarshalInner_marshalInner m (hinner (t, m) (by simp))]
    dsimp only
    rw [upsert_of_not_key acc t m htacc]
    have hdisj' : ∀ k' ∈ tl.map Prod.fst, k' ∉ (acc ++ [(t, m)]).map Prod.fst := by
      intro k' hk'
      simp only [List.map_append, List.mem_append, List.map_cons]
      push_neg
      refine ⟨hdisj k' (by simp [hk']), ?_⟩
      simp only [List.map_nil, List.mem_singleton]
      intro heq
      subst heq
      exact hnd.1 hk'
    rw [ih (acc ++ [(t, m)]) hnd.2 (fun tm' htm' => hinner tm' (by simp [htm'])) hdisj']
    simp

/-- The ledger keys `migratePost` may write for a given post. -/
def keysOfPost (p : Post) : List String :=
  formatKey "post" p.ID :: ((p.Comments.map fun c => formatKey "comment" c.ID) ++
    p.UserVotes.map fun v => formatKey "vote" v.ID)

theorem migrateComments_untouched (ctx : MigCtx) (t pid : String) (cs : List Comment) :
    ∀ (st : MigSt) (t' k : String),
      (t' ≠ t ∨ k ∉ cs.map fun c => formatKey "comment" c.ID) →
      stateValue (migrateComments ctx t pid cs st).2.state t' k = stateValue st.state t' k := by
  induction cs with
  | nil => intro st t' k _; rfl
  | cons c rest ih =>
    intro st t' k h
    have hrest : t' ≠ t ∨ k ∉ rest.map fun c => formatKey "comment" c.ID := by
      rcases h with h | h
      · exact Or.inl h
      · exact Or.inr (fun hm => h (by simp only [List.map_cons, List.mem_cons]; exact Or.inr hm))
    by_cases hc : getIDFromState st.state t "comment" c.ID ≠ ""
    · have hl : migrateComments ctx t pid (c :: rest) st = migrateComments ctx t pid rest st := by
        simp [migrateComments, hc]
      rw [hl]
      exact ih st t' k hrest
    · push_neg at hc
      rcases hcc : createComment ctx c pid st with ⟨r, st1⟩
      have hst1 : st1.state = st.state := by
        have h0 := createComment_state ctx c pid st
        rw [hcc] at h0; exact h0
      cases r with
      | error e =>
        have hl : migrateComments ctx t pid (c :: rest) st = (Except.error e, st1) := by
          simp [migrateComments, hc, hcc]
        rw [hl]
        rw [hst1]
      | ok cid =>
        have hl : migrateComments ctx t pid (c :: rest) st =
            migrateComments ctx t pid rest
              { st1 with state := saveIDToState st1.state t "comment" c.ID cid } := by
          simp [migrateComments, hc, hcc]
        rw [hl, ih _ t' k hrest]
        have hk : t' ≠ t ∨ k ≠ formatKey "comment" c.ID := by
          rcases h with h | h
          · exact Or.inl h
          · exact Or.inr (fun hm => h (by simp [hm]))
        show stateValue (saveIDToState st1.state t "comment" c.ID cid) t' k = _
        rw [stateValue_save_other st1.state t "comment" c.ID cid t' k hk, hst1]

theorem migrateVotes_untouched (ctx : MigCtx) (t pid : String) (vs : List Vote) :
    ∀ (st : MigSt) (t' k : String),
      (t' ≠ t ∨ k ∉ vs.map fun v => formatKey "vote" v.ID) →
      stateValue (migrateVotes ctx t pid vs st).2.state t' k = stateValue st.state t' k := by
  induction vs with
  | nil => intro st t' k _; rfl
  | cons v rest ih =>
    intro st t' k h
    have hrest : t' ≠ t ∨ k ∉ rest.map fun v => formatKey "vote" v.ID := by
      rcases h with h | h
      · exact Or.inl h
      · exact Or.inr (fun hm => h (by simp only [List.map_cons, List.mem_cons]; exact Or.inr hm))
    by_cases hv : getIDFromState st.state t "vote" v.ID ≠ "" ∨ v.User = none
    · have hl : migrateVotes ctx t pid (v :: rest) st = migrateVotes ctx t pid rest st := by
        simp only [migrateVotes, if_pos hv]
      rw [hl]
      exact ih st t' k hrest
    · rcases hcv : createVote ctx v pid st with ⟨r, st1⟩
      have hst1 : st1.state = st.state := by
        have h0 := createVote_state ctx v pid st
        rw [hcv] at h0; exact h0
      cases r with
      | error e =>
        have hl : migrateVotes ctx t pid (v :: rest) st = (Except.error e, st1) := by
          simp only [migrateVotes, if_neg hv, hcv]
        rw [hl]
        rw [hst1]
      | ok voteSuccess =>
        have hl : migrateVotes ctx t pid (v :: rest) st =
            migrateVotes ctx t pid rest
              { st1 with state := saveIDToState st1.state t "vote" v.ID voteSuccess } := by
          simp only [migrateVotes, if_neg hv, hcv]
        rw [hl, ih _ t' k hrest]
        have hk : t' ≠ t ∨ k ≠ formatKey "vote" v.ID := by
          rcases h with h | h
          · exact Or.inl h
          · exact Or.inr (fun hm => h (by simp [hm]))
        show stateValue (saveIDToState st1.state t "vote" v.ID voteSuccess) t' k = _
        rw [stateValue_save_other st1.state t "vote" v.ID voteSuccess t' k hk, hst1]

theorem migratePost_untouched (ctx : MigCtx) (p : Post) (t b : String) (st : MigSt)
    (t' k : String) (h : t' ≠ t ∨ k ∉ keysOfPost p) :
    stateValue (migratePost ctx p t b st).2.state t' k = stateValue st.state t' k := by
  have hpk : t' ≠ t ∨ k ≠ formatKey "post" p.ID := by
    rcases h with h | h
    · exact Or.inl h
    · exact Or.inr (fun hm => h (by simp [keysOfPost, hm]))
  have hck : t' ≠ t ∨ k ∉ p.Comments.map fun c => formatKey "comment" c.ID := by
    rcases h with h | h
    · exact Or.inl h
    · exact Or.inr (fun hm => h (by simp [keysOfPost, hm]))
  have hvk : t' ≠ t ∨ k ∉ p.UserVotes.map fun v => formatKey "vote" v.ID := by
    rcases h with h | h
    · exact Or.inl h
    · exact Or.inr (fun hm => h (by simp [keysOfPost, hm]))
  by_cases hp : getIDFromState st.state t "post" p.ID = ""
  · rcases hcp : createPost ctx p b st with ⟨r, st1⟩
    have hst1 : st1.state = st.state := by
      have h0 := createPost_state ctx p b st
      rw [hcp] at h0; exact h0
    cases r with
    | error e =>
      have hl : migratePost ctx p t b st = (Except.error e, st1) := by
        simp [migratePost, hp, hcp]
      rw [hl]
      rw [hst1]
    | ok pid =>
      rcases hmc : migrateComments ctx t pid p.Comments
          { st1 with state := saveIDToState st1.state t "post" p.ID pid } with ⟨rc, st3⟩
      have h3 : stateValue st3.state t' k = stateValue st.state t' k := by
        have h0 := migrateComments_untouched ctx t pid p.Comments
          { st1 with state := saveIDToState st1.state t "post" p.ID pid } t' k hck
        rw [hmc] at h0
        rw [h0]
        show stateValue (saveIDToState st1.state t "post" p.ID pid) t' k = _
        rw [stateValue_save_other st1.state t "post" p.ID pid t' k hpk, hst1]
      cases rc with
      | error e =>
        have hl : migratePost ctx p t b st = (Except.error e, st3) := by
          simp [migratePost, hp, hcp, hmc]
        rw [hl]
        exact h3
      | ok u =>
        have hl : migratePost ctx p t b st = migrateVotes ctx t pid p.UserVotes st3 := by
          simp [migratePost, hp, hcp, hmc]
        rw [hl, migrateVotes_untouched ctx t pid p.UserVotes st3 t' k hvk]
        exact h3
  · rcases hmc : migrateComments ctx t (getIDFromState st.state t "post" p.ID)
        p.Comments st with ⟨rc, st3⟩
    have h3 : stateValue st3.state t' k = stateValue st.state t' k := by
      have h0 := migrateComments_untouched ctx t (getIDFromState st.state t "post" p.ID)
        p.Comments st t' k hck
      rw [hmc] at h0
      exact h0
    cases rc with
    | error e =>
      have hl : migratePost ctx p t b st = (Except.error e, st3) := by
        simp [migratePost, hp, hmc]
      rw [hl]
      exact h3
    | ok u =>
      have hl : migratePost ctx p t b st =
          migrateVotes ctx t (getIDFromState st.state t "post" p.ID) p.UserVotes st3 := by
        simp [migratePost, hp, hmc]
      rw [hl, migrateVotes_untouched ctx t
        (getIDFromState st.state t "post" p.ID) p.UserVotes st3 t' k hvk]
      exact h3

theorem migrateTopic_untouched (ctx : MigCtx) (t b : String) (posts : List Post) :
    ∀ (st : MigSt) (t' k : String),
      (∀ p ∈ posts, t' ≠ t ∨ k ∉ keysOfPost p) →
      stateValue (migrateTopic ctx t b posts st).2.2.state t' k = stateValue st.state t' k := by
  induction posts with
  | nil => intro st t' k _; rfl
  | cons p rest ih =>
    intro st t' k h
    rcases hmp : migratePost ctx p t b st with ⟨r, st1⟩
    have h1 : stateValue st1.state t' k = stateValue st.state t' k := by
      have h0 := migratePost_untouched ctx p t b st t' k (h p (List.mem_cons_self p rest))
      rw [hmp] at h0
      exact h0
    have hrest : ∀ p' ∈ rest, t' ≠ t ∨ k ∉ keysOfPost p' :=
      fun p' hp' => h p' (List.mem_cons_of_mem p hp')
    cases r with
    | ok u =>
      have hl : (migrateTopic ctx t b (p :: rest) st).2.2 =
          (migrateTopic ctx t b rest st1).2.2 := by
        simp [migrateTopic, hmp]
      rw [hl, ih st1 t' k hrest]
      exact h1
    | error e =>
      have hl : (migrateTopic ctx t b (p :: rest) st).2.2 =
          (migrateTopic ctx t b rest st1).2.2 := by
        simp [migrateTopic, hmp]
      rw [hl, ih st1 t' k hrest]
      exact h1

theorem enrichVotesStage_some_id (env : FetchEnv) (post : Post) (uids : List Int)
    (q : Post) (es : List FetchErr) (us : List Int)
    (h : enrichVotesStage env post uids = (some q, es, us)) : q.ID = post.ID := by
  unfold enrichVotesStage at h
  by_cases hv : post.VoteCount > 0
  · rw [if_pos hv] at h
    rcases hg : getVotes (env.votePages post.ID) with e | votes <;> rw [hg] at h
    · simp at h
    · simp only [Prod.mk.injEq, Option.some.injEq] at h
      rw [← h.1]
  · rw [if_neg hv] at h
    simp only [Prod.mk.injEq, Option.some.injEq] at h
    rw [← h.1]

theorem enrichPost_some_id (env : FetchEnv) (post : Post) (q : Post)
    (h : (enrichPost env post).1 = some q) : q.ID = post.ID := by
  unfold enrichPost at h
  by_cases hc : post.CommentCount > 0
  · rw [if_pos hc] at h
    rcases hg : getComments (env.commentPages post.ID) with e | comments <;> rw [hg] at h
    · simp at h
    · dsimp only at h
      rcases he : enrichVotesStage env { post with Comments := comments }
          (([post.AuthorID]) ++ comments.map fun c => c.AuthorID) with ⟨oq, es, us⟩
      rw [he] at h
      simp only at h
      cases oq with
      | none => simp at h
      | some q' =>
        simp only [Option.some.injEq] at h
        subst h
        exact enrichVotesStage_some_id env { post with Comments := comments } _ q' es us he
  · rw [if_neg hc] at h
    rcases he : enrichVotesStage env post [post.AuthorID] with ⟨oq, es, us⟩
    rw [he] at h
    simp only at h
    cases oq with
    | none => simp at h
    | some q' =>
      simp only [Option.some.injEq] at h
      subst h
      exact enrichVotesStage_some_id env _ _ q' es us he

theorem enrichPost_fail_comments (env : FetchEnv) (post : Post) (e : FetchErr)
    (hc : post.CommentCount > 0) (hg : getComments (env.commentPages post.ID) = Except.error e) :
    enrichPost env post = (none, [e], [post.AuthorID]) := by
  unfold enrichPost
  rw [if_pos hc, hg]

theorem enrichPost_fail_votes (env : FetchEnv) (post : Post) (e : FetchErr)
    (hv : post.VoteCount > 0) (hg : getVotes (env.votePages post.ID) = Except.error e)
    (hcok : post.CommentCount ≤ 0 ∨ ∃ l, getComments (env.commentPages post.ID) = Except.ok l) :
    (enrichPost env post).1 = none ∧ e ∈ (enrichPost env post).2.1 := by
  unfold enrichPost
  rcases hcok with hc | ⟨l, hl⟩
  · rw [if_neg (by omega)]
    unfold enrichVotesStage
    rw [if_pos hv, hg]
    simp
  · by_cases hc : post.CommentCount > 0
    · rw [if_pos hc, hl]
      unfold enrichVotesStage
      simp only
      rw [if_pos (by simpa using hv)]
      have : getVotes (env.votePages ({ post with Comments := l } : Post).ID) =
          Except.error e := hg
      rw [this]
      simp
    · rw [if_neg hc]
      unfold enrichVotesStage
      rw [if_pos hv, hg]
      simp

theorem enrichAll_mem_results (env : FetchEnv) (posts : List Post) :
    ∀ q ∈ (enrichAll env posts).1, ∃ p ∈ posts, (enrichPost env p).1 = some q := by
  induction posts with
  | nil => intro q hq; simp [enrichAll] at hq
  | cons p rest ih =>
    intro q hq
    rw [enrichAll] at hq
    rcases he : (enrichPost env p).1 with _ | q0 <;> rw [he] at hq
    · simp only at hq
      obtain ⟨p', hp', hq'⟩ := ih q hq
      exact ⟨p', List.mem_cons_of_mem p hp', hq'⟩
    · simp only [List.mem_cons] at hq
      rcases hq with hq | hq
      · subst hq
        exact ⟨p, List.mem_cons_self p rest, he⟩
      · obtain ⟨p', hp', hq'⟩ := ih q hq
        exact ⟨p', List.mem_cons_of_mem p hp', hq'⟩

theorem enrichAll_mem_errors (env : FetchEnv) (posts : List Post) :
    ∀ p ∈ posts, ∀ e ∈ (enrichPost env p).2.1, e ∈ (enrichAll env posts).2.1 := by
  induction posts with
  | nil => intro p hp; exact absurd hp (List.not_mem_nil p)
  | cons p0 rest ih =>
    intro p hp e he
    rw [enrichAll]
    rcases List.mem_cons.mp hp with heq | hr
    · subst heq
      rcases h0 : enrichPost env p with ⟨oq, es, us⟩
      rw [h0] at he
      simp only at he
      cases oq <;> simp only [h0] <;> exact List.mem_append_left _ he
    · rcases h0 : enrichPost env p0 with ⟨oq, es, us⟩
      cases oq <;> simp only [h0] <;>
        exact List.mem_append_right _ (ih p hr e he)

/-- C4: for every sequence of N pages where each page carries an item
array and a next-page cursor chaining page1→…→pageN, page N's cursor
being empty, the paginated fetcher (comments and votes variants)
terminates and returns exactly the concatenation of all N pages' item
arrays, in page order.  The N pages are `front ++ [last]`; the model
serves the k-th GET the k-th response, and the non-empty cursors of
`front` are the chain. -/
theorem pagination_returns_concatenation :
    (∀ (front : List (PageResp Comment)) (last : PageResp Comment),
      last.nextPage = "" → last.items.isSome →
      (∀ p ∈ front, p.items.isSome ∧ p.nextPage ≠ "") →
      getComments ((front ++ [last]).map fun p => HttpResp.mk 200 (some p)) =
        Except.ok (((front ++ [last]).map fun p => p.items.getD []).flatten)) ∧
    (∀ (front : List (PageResp Vote)) (last : PageResp Vote),
      last.nextPage = "" → last.items.isSome →
      (∀ p ∈ front, p.items.isSome ∧ p.nextPage ≠ "") →
      getVotes ((front ++ [last]).map fun p => HttpResp.mk 200 (some p)) =
        Except.ok (((front ++ [last]).map fun p => p.items.getD []).flatten)) := by
  constructor
  · intro front last hlast hitems hfront
    have h := pagedFetchLoop_concat last hlast front [] hfront
    simpa [getComments] using h
  · intro front last hlast hitems hfront
    have h := pagedFetchLoop_concat last hlast front [] hfront
    simpa [getVotes] using h

/-- Concrete comment pages for the pagination witness. -/
def w4front : List (PageResp Comment) := [⟨some [⟨1, "b", 2, none⟩], "next"⟩]

/-- Concrete terminal comment page for the pagination witness. -/
def w4last : PageResp Comment := ⟨some [⟨3, "c", 4, none⟩], ""⟩

/-- Concrete terminal vote page for the pagination witness. -/
def w4lastV : PageResp Vote := ⟨some [⟨7, 8, none⟩], ""⟩

theorem pagination_returns_concatenation_witness :
    getComments ((w4front ++ [w4last]).map fun p => HttpResp.mk 200 (some p)) =
      Except.ok (((w4front ++ [w4last]).map fun p => p.items.getD []).flatten) ∧
    getVotes ((([] : List (PageResp Vote)) ++ [w4lastV]).map
        fun p => HttpResp.mk 200 (some p)) =
      Except.ok (((([] : List (PageResp Vote)) ++ [w4lastV]).map
        fun p => p.items.getD []).flatten) := by
  constructor
  · exact pagination_returns_concatenation.1 w4front w4last rfl rfl
      (by intro p hp; simp only [w4front, List.mem_singleton] at hp; subst hp
          exact ⟨rfl, by decide⟩)
  · exact pagination_returns_concatenation.2 [] w4lastV rfl rfl
      (by intro p hp; exact absurd hp (List.not_mem_nil p))

/-- C5: a decoded page with a non-empty next-page cursor but a
null/absent item array, and any response with a non-success transport
status, make the paginated fetcher (posts, comments and votes
variants) return an error rather than silently continuing or
returning only a partial result; `good` is any prefix of pages the
loop walks before hitting the bad response. -/
theorem fetcher_errors_on_malformed_or_bad_status :
    (∀ (good : List (HttpResp (PageResp Comment))) (bad : HttpResp (PageResp Comment))
        (rest : List (HttpResp (PageResp Comment))),
      (∀ r ∈ good, okRespShape r) → badRespShape bad →
      ∃ e, getComments (good ++ bad :: rest) = Except.error e) ∧
    (∀ (good : List (HttpResp (PageResp Vote))) (bad : HttpResp (PageResp Vote))
        (rest : List (HttpResp (PageResp Vote))),
      (∀ r ∈ good, okRespShape r) → badRespShape bad →
      ∃ e, getVotes (good ++ bad :: rest) = Except.error e) ∧
    (∀ (good : List (HttpResp (PageResp Post))) (bad : HttpResp (PageResp Post))
        (rest : List (HttpResp (PageResp Post))),
      (∀ r ∈ good, okRespShape r) → badRespShape bad →
      ∃ e, (postsLoop (good ++ bad :: rest) []).2 = some e) := by
  refine ⟨?_, ?_, ?_⟩
  · intro good bad rest hgood hbad
    have h := pagedFetchLoop_error bad hbad rest good [] hgood
    simpa [getComments] using h
  · intro good bad rest hgood hbad
    have h := pagedFetchLoop_error bad hbad rest good [] hgood
    simpa [getVotes] using h
  · intro good bad rest hgood hbad
    exact postsLoop_error bad hbad rest good [] hgood

theorem fetcher_errors_on_malformed_or_bad_status_witness :
    (∃ e, getComments [HttpResp.mk 500 none] = Except.error e) ∧
    (∃ e, getVotes [HttpResp.mk 200 (some (⟨none, "next"⟩ : PageResp Vote))] =
      Except.error e) ∧
    (∃ e, (postsLoop [HttpResp.mk 503 none] []).2 = some e) := by
  refine ⟨?_, ?_, ?_⟩
  · exact fetcher_errors_on_malformed_or_bad_status.1 [] (HttpResp.mk 500 none) []
      (by intro r hr; exact absurd hr (List.not_mem_nil r)) (Or.inl (by decide))
  · exact fetcher_errors_on_malformed_or_bad_status.2.1 []
      (HttpResp.mk 200 (some ⟨none, "next"⟩)) []
      (by intro r hr; exact absurd hr (List.not_mem_nil r))
      (Or.inr ⟨⟨none, "next"⟩, rfl, rfl, by decide⟩)
  · exact fetcher_errors_on_malformed_or_bad_status.2.2 [] (HttpResp.mk 503 none) []
      (by intro r hr; exact absurd hr (List.not_mem_nil r)) (Or.inl (by decide))

/-- C6 counterexample: the empty id set yields one request (the loop
always appends the remaining - here empty - ids as a final batch),
whereas the claimed formula ceil(n/100) yields zero requests. -/
theorem load_users_empty_batch_cex :
    (splitBatches ([] : List Int)).length = 1 ∧
    ((List.length ([] : List Int)) + 99) / 100 = 0 ∧
    (splitBatches ([] : List Int)).length ≠ ((List.length ([] : List Int)) + 99) / 100 := by
  decide

/-- C6 (amended): a NONEMPTY id list is split into exactly
ceil(n/100) batches - every batch but the last of exactly 100 ids, the
last of at most 100 - whose concatenation is the id list in order, one
request being issued per batch; the EMPTY id list yields one request
with an empty batch.  On success the cache holds a loaded record for
every returned user id. -/
theorem load_users_batching_amended :
    ∀ ids : List Int,
      (splitBatches ids).flatten = ids ∧
      (∀ b ∈ (splitBatches ids).dropLast, b.length = 100) ∧
      (∀ b ∈ splitBatches ids, b.length ≤ 100) ∧
      (ids ≠ [] → (splitBatches ids).length = (ids.length + 99) / 100) ∧
      splitBatches [] = [[]] ∧
      (∀ (batchResp : List Int → HttpResp (List User)) (users0 users' : UserCache),
        loadUsers batchResp users0 ids = Except.ok users' →
        ∀ b ∈ splitBatches ids, ∀ returned, clientGet (batchResp b) = Except.ok returned →
          ∀ u ∈ returned, cacheHasUserFor users' u.ID) := by
  intro ids
  refine ⟨splitBatchesGo_join ids.length ids, splitBatchesGo_dropLast ids.length ids,
    splitBatchesGo_le ids.length ids le_rfl, ?_, rfl, ?_⟩
  · intro hne
    exact splitBatchesGo_count ids.length ids (List.length_pos.mpr hne) le_rfl
  · intro batchResp users0 users' h b hb returned hret u hu
    exact loadUsersLoop_mem batchResp (splitBatches ids) users0 users' h b hb returned hret u hu

theorem load_users_batching_amended_witness :
    (splitBatches [(1 : Int), 2]).flatten = [1, 2] ∧
    (splitBatches [(1 : Int), 2]).length = (2 + 99) / 100 ∧
    cacheHasUserFor
      ((loadUsers (fun _ => HttpResp.mk 200 (some [⟨7, 0, "n", "e", "x"⟩])) [] [(1 : Int), 2]).toOption.getD
        [])
      7 := by
  refine ⟨(load_users_batching_amended [(1 : Int), 2]).1, ?_, ?_⟩
  · exact (load_users_batching_amended [(1 : Int), 2]).2.2.2.1 (by decide)
  · have h := (load_users_batching_amended [(1 : Int), 2]).2.2.2.2.2
      (fun _ => HttpResp.mk 200 (some [⟨7, 0, "n", "e", "x"⟩])) []
      [(7, some ⟨7, 0, "n", "e", "x"⟩)] rfl [1, 2] (by decide)
      [⟨7, 0, "n", "e", "x"⟩] rfl ⟨7, 0, "n", "e", "x"⟩ (by decide)
    exact h

/-- C7: the single consumer of the user-id stream appends an id to the
pending-load list only if it is not already a key of the process-wide
cache, marking it with the nil sentinel immediately; hence each
topic's pending list is duplicate-free, contains only ids previously
unknown to the cache, and (the batch load of topic 1 having
succeeded) is disjoint from the next topic's pending list - the batch
loader sees each id at most once per run. -/
theorem user_batch_loader_at_most_once :
    ∀ (users0 : UserCache) (stream1 stream2 : List Int)
      (batchResp : List Int → HttpResp (List User)) (users1 : UserCache),
      loadUsers batchResp (collectUsersToLoad users0 stream1).1
          (collectUsersToLoad users0 stream1).2 = Except.ok users1 →
      (collectUsersToLoad users0 stream1).2.Nodup ∧
      (∀ id ∈ (collectUsersToLoad users0 stream1).2, alookup users0 id = none) ∧
      (collectUsersToLoad users1 stream2).2.Nodup ∧
      (∀ id ∈ (collectUsersToLoad users0 stream1).2,
        id ∉ (collectUsersToLoad users1 stream2).2) := by
  intro users0 stream1 stream2 batchResp users1 hload
  have h1 := collectFold_spec stream1 users0 []
    (by intro id h; exact absurd h (List.not_mem_nil id)) List.nodup_nil
  have h2 := collectFold_spec stream2 users1 []
    (by intro id h; exact absurd h (List.not_mem_nil id)) List.nodup_nil
  refine ⟨h1.2.1, ?_, h2.2.1, ?_⟩
  · intro id hid
    rcases h1.2.2.2 id hid with h | h
    · exact absurd h (List.not_mem_nil id)
    · exact h
  · intro id hid hid2
    have hsome1 : (alookup (collectUsersToLoad users0 stream1).1 id).isSome := h1.1 id hid
    have hsome2 : (alookup users1 id).isSome :=
      loadUsersLoop_keyPresent batchResp _ _ users1 hload id hsome1
    rcases h2.2.2.2 id hid2 with h | h
    · exact absurd h (List.not_mem_nil id)
    · rw [h] at hsome2
      simp at hsome2

theorem user_batch_loader_at_most_once_witness :
    (collectUsersToLoad [] [1, 1, 2]).2.Nodup ∧
    (∀ id ∈ (collectUsersToLoad [] [1, 1, 2]).2, alookup ([] : UserCache) id = none) ∧
    (collectUsersToLoad [((1 : Int), none), (2, none)] [2, 3]).2.Nodup ∧
    (∀ id ∈ (collectUsersToLoad ([] : UserCache) [1, 1, 2]).2,
      id ∉ (collectUsersToLoad [((1 : Int), none), (2, none)] [2, 3]).2) :=
  user_batch_loader_at_most_once [] [1, 1, 2] [2, 3]
    (fun _ => HttpResp.mk 200 (some [])) [((1 : Int), none), (2, none)] rfl

/-- C9: saving the ledger and loading it back yields the same mapping
(Go maps have no duplicate keys, whence the no-duplicate hypotheses),
and loading when the state file is absent yields the empty mapping. -/
theorem ledger_round_trip :
    ∀ s : StateMap,
      (s.map Prod.fst).Nodup →
      (∀ tm ∈ s, (tm.2.map Prod.fst).Nodup) →
      loadState (saveState s) = Except.ok s ∧ loadState none = Except.ok [] := by
  intro s hnd hinner
  constructor
  · have h : unmarshalState (marshalState s) = some s := by
      have h0 := unmarshalStateFields_roundtrip s [] hnd hinner (by simp)
      simpa [marshalState, unmarshalState] using h0
    simp [saveState, loadState, h]
  · rfl

theorem ledger_round_trip_witness :
    loadState (saveState [("topic", [("post_1", "a"), ("comment_2", "b")])]) =
      Except.ok [("topic", [("post_1", "a"), ("comment_2", "b")])] ∧
    loadState none = Except.ok [] :=
  ledger_round_trip [("topic", [("post_1", "a"), ("comment_2", "b")])]
    (by decide) (by decide)

/-- C1 (amended): a record-creation (or author-resolution) failure
aborts only the failing post's remaining unledgered work — the
comment/vote loops return at the first error, so any items after the
failing one are never attempted — while the surrounding topic loop
still attempts every post of the topic (success + fail counts sum to
the post count) and leaves every non-empty ledger cell committed
unchanged. -/
theorem record_failure_aborts_post_not_topic :
    ∀ (ctx : MigCtx) (zTopic cBoard : String) (posts : List Post) (st : MigSt),
      ((migrateTopic ctx zTopic cBoard posts st).1 +
        (migrateTopic ctx zTopic cBoard posts st).2.1 = posts.length) ∧
      (∀ t' k, stateValue st.state t' k ≠ "" →
        stateValue (migrateTopic ctx zTopic cBoard posts st).2.2.state t' k =
          stateValue st.state t' k) ∧
      (∀ (pid : String) (cs cs2 : List Comment) (e : String) (st' : MigSt),
        migrateComments ctx zTopic pid cs st = (Except.error e, st') →
        migrateComments ctx zTopic pid (cs ++ cs2) st = (Except.error e, st')) ∧
      (∀ (pid : String) (vs vs2 : List Vote) (e : String) (st' : MigSt),
        migrateVotes ctx zTopic pid vs st = (Except.error e, st') →
        migrateVotes ctx zTopic pid (vs ++ vs2) st = (Except.error e, st')) :=
  fun ctx zTopic cBoard posts st =>
    ⟨migrateTopic_counts ctx zTopic cBoard posts st,
     migrateTopic_preserves ctx zTopic cBoard posts st,
     fun pid cs cs2 e st' h => migrateComments_error_append ctx zTopic pid cs cs2 st e st' h,
     fun pid vs vs2 e st' h => migrateVotes_error_append ctx zTopic pid vs vs2 st e st' h⟩

/-- A destination that rejects the post titled "t1" and accepts
everything else. -/
def c1oracle : CannyOracle where
  createPost := fun req => if req.Title = "t1" then Except.error "boom" else Except.ok "cid"
  createComment := fun _ => Except.error "ce"
  createVote := fun _ => Except.error "ve"
  findOrCreateUser := fun _ => Except.ok "fu"

/-- Migration context for the C1 scenario. -/
def c1ctx : MigCtx := ⟨c1oracle, "d", fun s => s⟩

/-- First post of the C1 scenario (its creation fails). -/
def c1p1 : Post := ⟨1, "t1", "", 0, 0, 0, [], [], none⟩

/-- Second post of the C1 scenario (still processed after the failure). -/
def c1p2 : Post := ⟨2, "t2", "", 0, 0, 0, [], [], none⟩

/-- A pre-populated state for the C1 witness. -/
def w1st : MigSt := ⟨[("u", [("k", "x")])], [], []⟩

/-- C1 counterexample: with two posts in one topic whose first creation
fails, the topic's remaining unledgered work is NOT aborted — the
second post is still created and ledgered (the loop moves to the next
post, not the next topic). -/
theorem creation_failure_topic_cex :
    (migrateTopic c1ctx "top" "bd" [c1p1, c1p2] ⟨[], [], []⟩).1 = 1 ∧
    (migrateTopic c1ctx "top" "bd" [c1p1, c1p2] ⟨[], [], []⟩).2.1 = 1 ∧
    getIDFromState (migrateTopic c1ctx "top" "bd" [c1p1, c1p2] ⟨[], [], []⟩).2.2.state
      "top" "post" 2 = "cid" := by
  decide

theorem record_failure_aborts_post_not_topic_witness :
    ((migrateTopic c1ctx "top" "bd" [c1p1, c1p2] w1st).1 +
      (migrateTopic c1ctx "top" "bd" [c1p1, c1p2] w1st).2.1 = 2) ∧
    stateValue (migrateTopic c1ctx "top" "bd" [c1p1, c1p2] w1st).2.2.state "u" "k" = "x" ∧
    migrateComments c1ctx "top" "p" ([⟨9, "cb", 3, none⟩] ++ [⟨12, "cb2", 3, none⟩]) w1st =
      (Except.error "ce",
       ⟨[("u", [("k", "x")])], [], [DestCall.comment ⟨"d", "p", "cb"⟩]⟩) ∧
    migrateVotes c1ctx "top" "p"
        ([⟨11, 5, some ⟨5, 0, "n", "e", "x"⟩⟩] ++ [⟨13, 5, none⟩]) w1st =
      (Except.error "ve",
       ⟨[("u", [("k", "x")])], [(5, "fu")],
        [DestCall.findUser ⟨0, "e", "n", "x"⟩, DestCall.vote ⟨"p", "fu"⟩]⟩) := by
  obtain ⟨h1, h2, h3, h4⟩ :=
    record_failure_aborts_post_not_topic c1ctx "top" "bd" [c1p1, c1p2] w1st
  refine ⟨h1, (h2 "u" "k" (by decide)).trans (by decide), ?_, ?_⟩
  · exact h3 "p" [⟨9, "cb", 3, none⟩] [⟨12, "cb2", 3, none⟩] "ce"
      ⟨[("u", [("k", "x")])], [], [DestCall.comment ⟨"d", "p", "cb"⟩]⟩ rfl
  · exact h4 "p" [⟨11, 5, some ⟨5, 0, "n", "e", "x"⟩⟩] [⟨13, 5, none⟩] "ve"
      ⟨[("u", [("k", "x")])], [(5, "fu")],
       [DestCall.findUser ⟨0, "e", "n", "x"⟩, DestCall.vote ⟨"p", "fu"⟩]⟩ rfl

/-- C2 (amended): when every post/comment creation of the first run
returned a non-empty identifier and the first run completed with zero
record failures, a second full run over the same per-topic post lists
against the resulting (unmodified) ledger — with a fresh user-mapping
cache and an empty call log, as a fresh process would start — issues
zero destination calls of any kind, changes nothing, and skips every
post as already migrated. -/
theorem second_run_no_creations_amended :
    ∀ (ctx : MigCtx) (run : List (String × String × List Post)) (st0 : MigSt)
      (um : List (Int × String)),
      CannyNonEmptyIDs ctx.canny →
      (migrateRun ctx run st0).2.1 = 0 →
      migrateRun ctx run ⟨(migrateRun ctx run st0).2.2.state, um, []⟩ =
        (totalPosts run, 0, ⟨(migrateRun ctx run st0).2.2.state, um, []⟩) := by
  intro ctx run st0 um hids hfail
  apply migrateRun_skip
  intro tbp htbp p hp
  exact migrateRun_ok_ledgered ctx hids run st0 hfail tbp htbp p hp

/-- A destination that acknowledges every creation with an empty
identifier (a 200 response whose decoded id field is empty). -/
def cexOracle : CannyOracle :=
  ⟨fun _ => Except.ok "", fun _ => Except.ok "", fun _ => Except.ok (), fun _ => Except.ok ""⟩

/-- Migration context for the C2 counterexample. -/
def cexCtx : MigCtx := ⟨cexOracle, "d", fun s => s⟩

/-- The single post of the C2 counterexample. -/
def cexPost : Post := ⟨1, "T", "D", 0, 0, 0, [], [], none⟩

/-- C2 counterexample: the first run completes with zero failures and
ledgers the post under the empty identifier the destination returned;
the second run against that unmodified ledger still issues a creation
call (the claim promises zero destination creation calls for every
ledger produced by a completed run). -/
theorem second_run_empty_id_cex :
    (migrateRun cexCtx [("t", "b", [cexPost])] ⟨[], [], []⟩).2.1 = 0 ∧
    getIDFromState (migrateRun cexCtx [("t", "b", [cexPost])] ⟨[], [], []⟩).2.2.state
      "t" "post" 1 = "" ∧
    (migrateRun cexCtx [("t", "b", [cexPost])]
      ⟨(migrateRun cexCtx [("t", "b", [cexPost])] ⟨[], [], []⟩).2.2.state, [], []⟩).2.2.calls ≠
      [] := by
  decide

/-- A destination returning distinct non-empty identifiers. -/
def c2oracle : CannyOracle :=
  ⟨fun _ => Except.ok "P1", fun _ => Except.ok "C1", fun _ => Except.ok (),
   fun _ => Except.ok "U1"⟩

/-- Migration context for the C2 witness. -/
def c2ctx : MigCtx := ⟨c2oracle, "d", fun s => s⟩

/-- A post with one comment, one vote with a resolved user, and a
resolved author, for the C2 witness. -/
def c2post : Post :=
  ⟨1, "T", "D", 3, 1, 1, [⟨10, "cb", 4, none⟩], [⟨20, 6, some ⟨6, 0, "n", "e", "x"⟩⟩],
   some ⟨3, 0, "an", "ae", "ax"⟩⟩

theorem second_run_no_creations_amended_witness :
    migrateRun c2ctx [("t", "b", [c2post])]
      ⟨(migrateRun c2ctx [("t", "b", [c2post])] ⟨[], [], []⟩).2.2.state, [], []⟩ =
      (totalPosts [("t", "b", [c2post])], 0,
       ⟨(migrateRun c2ctx [("t", "b", [c2post])] ⟨[], [], []⟩).2.2.state, [], []⟩) :=
  second_run_no_creations_amended c2ctx [("t", "b", [c2post])] ⟨[], [], []⟩ []
    (by constructor
        · intro req id h
          simp only [c2ctx, c2oracle] at h
          injection h with h'
          subst h'
          decide
        · intro req id h
          simp only [c2ctx, c2oracle] at h
          injection h with h'
          subst h'
          decide)
    rfl

/-- C3: a parent whose comment-fetch (or, the comment stage passing,
whose vote-fetch) fails is dropped by the enrichment worker: the fetch
error is emitted to the error stream, no record with the parent's id
reaches the enriched-results stream, and consequently any ledger key
that is not a key of some emitted record — in particular the parent's
own post key and its children's keys, when distinct from the emitted
records' keys — remains unledgered after migrating the enriched
results. -/
theorem enrichment_failure_excludes_record :
    ∀ (env : FetchEnv) (posts : List Post) (P : Post) (ctx : MigCtx)
      (zTopic cBoard : String) (st : MigSt),
      P ∈ posts →
      (∀ q ∈ posts, q.ID = P.ID → q = P) →
      ((P.CommentCount > 0 ∧ ∃ e, getComments (env.commentPages P.ID) = Except.error e) ∨
       (P.VoteCount > 0 ∧
        (P.CommentCount ≤ 0 ∨ ∃ l, getComments (env.commentPages P.ID) = Except.ok l) ∧
        ∃ e, getVotes (env.votePages P.ID) = Except.error e)) →
      (∃ e, e ∈ (enrichAll env posts).2.1 ∧
        (getComments (env.commentPages P.ID) = Except.error e ∨
         getVotes (env.votePages P.ID) = Except.error e)) ∧
      (∀ q ∈ (enrichAll env posts).1, q.ID ≠ P.ID) ∧
      (∀ k, stateValue st.state zTopic k = "" →
        (∀ q ∈ (enrichAll env posts).1, k ∉ keysOfPost q) →
        stateValue (migrateTopic ctx zTopic cBoard (enrichAll env posts).1 st).2.2.state
          zTopic k = "") := by
  intro env posts P ctx zTopic cBoard st hmem huniq hfail
  have hPfail : (enrichPost env P).1 = none ∧
      ∃ e, e ∈ (enrichPost env P).2.1 ∧
        (getComments (env.commentPages P.ID) = Except.error e ∨
         getVotes (env.votePages P.ID) = Except.error e) := by
    rcases hfail with ⟨hc, e, hg⟩ | ⟨hv, hcok, e, hg⟩
    · rw [enrichPost_fail_comments env P e hc hg]
      exact ⟨rfl, e, by simp, Or.inl hg⟩
    · obtain ⟨h1, h2⟩ := enrichPost_fail_votes env P e hv hg hcok
      exact ⟨h1, e, h2, Or.inr hg⟩
  obtain ⟨hnone, e, hmemE, hsrc⟩ := hPfail
  refine ⟨⟨e, enrichAll_mem_errors env posts P hmem e hmemE, hsrc⟩, ?_, ?_⟩
  · intro q hq hID
    obtain ⟨p', hp', hsome⟩ := enrichAll_mem_results env posts q hq
    have hqid : q.ID = p'.ID := enrichPost_some_id env p' q hsome
    have hpP : p' = P := huniq p' hp' (by rw [← hqid]; exact hID)
    rw [hpP, hnone] at hsome
    exact Option.noConfusion hsome
  · intro k hk hnot
    have h0 := migrateTopic_untouched ctx zTopic cBoard (enrichAll env posts).1 st zTopic k
      (fun p hp => Or.inr (hnot p hp))
    rw [h0, hk]

/-- A source whose comment fetch fails with HTTP 500 for every post
and whose vote fetch succeeds with no votes. -/
def w3env : FetchEnv :=
  ⟨fun _ => [HttpResp.mk 500 none], fun _ => [HttpResp.mk 200 (some ⟨some [], ""⟩)]⟩

/-- A parent with a positive declared comment count for the C3 witness. -/
def w3P : Post := ⟨1, "T", "D", 2, 0, 1, [], [], none⟩

/-- Migration context for the C3 witness (never consulted: the
enriched-results stream is empty). -/
def w3ctx : MigCtx :=
  ⟨⟨fun _ => Except.ok "p", fun _ => Except.ok "c", fun _ => Except.ok (),
    fun _ => Except.ok "u"⟩, "d", fun s => s⟩

theorem enrichment_failure_excludes_record_witness :
    (∃ e, e ∈ (enrichAll w3env [w3P]).2.1 ∧
      (getComments (w3env.commentPages w3P.ID) = Except.error e ∨
       getVotes (w3env.votePages w3P.ID) = Except.error e)) ∧
    (∀ q ∈ (enrichAll w3env [w3P]).1, q.ID ≠ w3P.ID) ∧
    (∀ k, stateValue ([] : StateMap) "t" k = "" →
      (∀ q ∈ (enrichAll w3env [w3P]).1, k ∉ keysOfPost q) →
      stateValue (migrateTopic w3ctx "t" "bd" (enrichAll w3env [w3P]).1
        ⟨[], [], []⟩).2.2.state "t" k = "") :=
  enrichment_failure_excludes_record w3env [w3P] w3P w3ctx "t" "bd" ⟨[], [], []⟩
    (List.mem_singleton.mpr rfl)
    (fun q hq _ => List.mem_singleton.mp hq)
    (Or.inl ⟨by decide, FetchErr.getFailed (GetErr.badStatus 500), rfl⟩)

/-- C8 (amended): a user whose source id maps to a NON-EMPTY value in
the caller-supplied agent table resolves to that value with no
find-or-create call and no state change; otherwise (id absent, or
mapped to the empty string) exactly one find-or-create call is
issued, and a successful non-empty result is cached under the source
id so that resolving the same user again issues no further call for
the remainder of the run. -/
theorem mapping_before_lookup_amended :
    ∀ (ctx : MigCtx) (user : User) (st : MigSt),
      (∀ v, alookup st.userMapping user.ID = some v → v ≠ "" →
        findOrCreateUser ctx user st = (Except.ok v, st)) ∧
      ((alookup st.userMapping user.ID).getD "" = "" →
        (findOrCreateUser ctx user st).2.calls =
          st.calls ++ [DestCall.findUser (fcuReq user)] ∧
        ∀ uid, ctx.canny.findOrCreateUser (fcuReq user) = Except.ok uid →
          findOrCreateUser ctx user st =
            (Except.ok uid,
             ⟨st.state, upsert st.userMapping user.ID uid,
              st.calls ++ [DestCall.findUser (fcuReq user)]⟩) ∧
          (uid ≠ "" →
            findOrCreateUser ctx user
              ⟨st.state, upsert st.userMapping user.ID uid,
               st.calls ++ [DestCall.findUser (fcuReq user)]⟩ =
            (Except.ok uid,
             ⟨st.state, upsert st.userMapping user.ID uid,
              st.calls ++ [DestCall.findUser (fcuReq user)]⟩))) := by
  intro ctx user st
  constructor
  · intro v hv hne
    simp [findOrCreateUser, hv, hne]
  · intro hk
    constructor
    · rcases ho : ctx.canny.findOrCreateUser (fcuReq user) with e | uid <;>
        simp [findOrCreateUser, hk, ho]
    · intro uid ho
      constructor
      · simp [findOrCreateUser, hk, ho]
      · intro hne
        simp [findOrCreateUser, alookup_upsert_self, hne]

/-- A destination accepting everything, for the C8 scenario. -/
def c8oracle : CannyOracle :=
  ⟨fun _ => Except.ok "P", fun _ => Except.ok "C", fun _ => Except.ok (),
   fun _ => Except.ok "U"⟩

/-- Migration context for the C8 scenario. -/
def c8ctx : MigCtx := ⟨c8oracle, "d", fun s => s⟩

/-- The user resolved in the C8 scenario. -/
def c8user : User := ⟨5, 0, "n", "e", "x"⟩

/-- C8 counterexample: the agent mapping table HAS an entry for source
id 5 (mapped to the empty string), yet resolving that user still
issues a find-or-create call — the code consults the table by value
non-emptiness, not by key presence, so the claimed "entries here never
trigger a find-or-create call" fails for this entry. -/
theorem mapping_empty_entry_triggers_call_cex :
    alookup ([(5, "")] : List (Int × String)) c8user.ID = some "" ∧
    (findOrCreateUser c8ctx c8user ⟨[], [(5, "")], []⟩).2.calls ≠ [] := by
  decide

theorem mapping_before_lookup_amended_witness :
    findOrCreateUser c8ctx c8user ⟨[], [(5, "v")], []⟩ =
      (Except.ok "v", ⟨[], [(5, "v")], []⟩) ∧
    (findOrCreateUser c8ctx c8user ⟨[], [], []⟩).2.calls =
      [DestCall.findUser ⟨0, "e", "n", "x"⟩] ∧
    findOrCreateUser c8ctx c8user ⟨[], [(5, "U")], [DestCall.findUser ⟨0, "e", "n", "x"⟩]⟩ =
      (Except.ok "U", ⟨[], [(5, "U")], [DestCall.findUser ⟨0, "e", "n", "x"⟩]⟩) := by
  obtain ⟨h1, h2⟩ := mapping_before_lookup_amended c8ctx c8user ⟨[], [], []⟩
  refine ⟨?_, ?_, ?_⟩
  · exact (mapping_before_lookup_amended c8ctx c8user ⟨[], [(5, "v")], []⟩).1 "v" rfl
      (by decide)
  · exact (h2 rfl).1
  · exact ((h2 rfl).2 "U" rfl).2 (by decide)

theorem saveIDToState_entry (st : StateMap) (t ty : String) (id : Int) (v : String) :
    ∃ m, alookup (saveIDToState st t ty id v) t = some m ∧
      alookup m (formatKey ty id) = some v := by
  unfold saveIDToState
  cases h : alookup st t with
  | none =>
    exact ⟨[(formatKey ty id, v)], alookup_upsert_self st t [(formatKey ty id, v)],
      by simp [alookup]⟩
  | some m0 =>
    exact ⟨upsert m0 (formatKey ty id) v, alookup_upsert_self st t _,
      alookup_upsert_self m0 (formatKey ty id) v⟩

theorem migratePost_simple_empty (ctx : MigCtx) (post : Post) (zTopic cBoard : String)
    (st : MigSt) (pid : String)
    (hA : post.Author = none) (hC : post.Comments = []) (hV : post.UserVotes = [])
    (hd : ctx.defaultUserID ≠ "")
    (hp : getIDFromState st.state zTopic "post" post.ID = "")
    (hor : ctx.canny.createPost ⟨ctx.defaultUserID, cBoard, ctx.sanitize post.Details,
      ctx.sanitize post.Title⟩ = Except.ok pid) :
    migratePost ctx post zTopic cBoard st =
      (Except.ok (), ⟨saveIDToState st.state zTopic "post" post.ID pid, st.userMapping,
        st.calls ++ [DestCall.post ⟨ctx.defaultUserID, cBoard, ctx.sanitize post.Details,
          ctx.sanitize post.Title⟩]⟩) := by
  have hcp : createPost ctx post cBoard st =
      (Except.ok pid,
       { st with calls := st.calls ++ [DestCall.post ⟨ctx.defaultUserID, cBoard,
          ctx.sanitize post.Details, ctx.sanitize post.Title⟩] }) := by
    simp [createPost, resolveUser, hA, hd, hor]
  simp [migratePost, hp, hcp, hC, hV, migrateComments, migrateVotes]

/-- C10: ledger presence is decided solely by value non-emptiness:
writing the empty string under a key leaves the lookup reporting the
key as absent; hence a post whose creation succeeds with an empty
destination identifier completes without error, is ledgered with an
empty value, still reads as not-yet-migrated, and is re-created (a
new creation call is issued) on the next run against that ledger;
votes avoid this because a successful vote creation always yields the
non-empty placeholder "s", whose ledger entry reads as present. -/
theorem empty_ledger_value_treated_absent :
    ∀ (st : StateMap) (zTopic objType : String) (id : Int),
      getIDFromState (saveIDToState st zTopic objType id "") zTopic objType id = "" ∧
      (∀ (ctx : MigCtx) (cBoard : String) (post : Post) (um : List (Int × String))
          (cl : List DestCall),
        post.Author = none → post.Comments = [] → post.UserVotes = [] →
        ctx.defaultUserID ≠ "" →
        getIDFromState st zTopic "post" post.ID = "" →
        ctx.canny.createPost ⟨ctx.defaultUserID, cBoard, ctx.sanitize post.Details,
          ctx.sanitize post.Title⟩ = Except.ok "" →
        (migratePost ctx post zTopic cBoard ⟨st, um, cl⟩).1 = Except.ok () ∧
        (∃ m, alookup (migratePost ctx post zTopic cBoard ⟨st, um, cl⟩).2.state zTopic =
            some m ∧ alookup m (formatKey "post" post.ID) = some "") ∧
        getIDFromState (migratePost ctx post zTopic cBoard ⟨st, um, cl⟩).2.state
          zTopic "post" post.ID = "" ∧
        (migratePost ctx post zTopic cBoard
          ⟨(migratePost ctx post zTopic cBoard ⟨st, um, cl⟩).2.state, um, []⟩).2.calls ≠ []) ∧
      (∀ (ctx : MigCtx) (vote : Vote) (postID : String) (st' st'' : MigSt) (r : String),
        createVote ctx vote postID st' = (Except.ok r, st'') → r = "s") ∧
      getIDFromState (saveIDToState st zTopic "vote" id "s") zTopic "vote" id ≠ "" := by
  intro st zTopic objType id
  refine ⟨stateValue_save_self st zTopic objType id "", ?_, ?_, ?_⟩
  · intro ctx cBoard post um cl hA hC hV hd hp hor
    have h1 := migratePost_simple_empty ctx post zTopic cBoard ⟨st, um, cl⟩ "" hA hC hV hd hp hor
    refine ⟨?_, ?_, ?_, ?_⟩
    · rw [h1]
    · rw [h1]
      exact saveIDToState_entry st zTopic "post" post.ID ""
    · rw [h1]
      exact stateValue_save_self st zTopic "post" post.ID ""
    · rw [h1]
      have hp2 : getIDFromState (saveIDToState st zTopic "post" post.ID "")
          zTopic "post" post.ID = "" := stateValue_save_self st zTopic "post" post.ID ""
      have h2 := migratePost_simple_empty ctx post zTopic cBoard
        ⟨saveIDToState st zTopic "post" post.ID "", um, []⟩ "" hA hC hV hd hp2 hor
      show (migratePost ctx post zTopic cBoard
        ⟨saveIDToState st zTopic "post" post.ID "", um, []⟩).2.calls ≠ []
      rw [h2]
      simp
  · intro ctx vote postID st' st'' r h
    exact createVote_ok_val ctx vote postID st' r st'' h
  · have h := stateValue_save_self st zTopic "vote" id "s"
    rw [show getIDFromState (saveIDToState st zTopic "vote" id "s") zTopic "vote" id =
      stateValue (saveIDToState st zTopic "vote" id "s") zTopic (formatKey "vote" id) from rfl]
    rw [h]
    simp

/-- A destination answering every creation with an empty identifier,
for the C10 witness. -/
def c10ctx : MigCtx :=
  ⟨⟨fun _ => Except.ok "", fun _ => Except.ok "", fun _ => Except.ok (),
    fun _ => Except.ok ""⟩, "d", fun s => s⟩

/-- The post of the C10 witness. -/
def c10post : Post := ⟨1, "T", "D", 0, 0, 0, [], [], none⟩

theorem empty_ledger_value_treated_absent_witness :
    getIDFromState (saveIDToState [] "t" "post" 1 "") "t" "post" 1 = "" ∧
    (migratePost c10ctx c10post "t" "b" ⟨[], [], []⟩).1 = Except.ok () ∧
    (∃ m, alookup (migratePost c10ctx c10post "t" "b" ⟨[], [], []⟩).2.state "t" = some m ∧
      alookup m (formatKey "post" c10post.ID) = some "") ∧
    getIDFromState (migratePost c10ctx c10post "t" "b" ⟨[], [], []⟩).2.state
      "t" "post" 1 = "" ∧
    (migratePost c10ctx c10post "t" "b"
      ⟨(migratePost c10ctx c10post "t" "b" ⟨[], [], []⟩).2.state, [], []⟩).2.calls ≠ [] ∧
    getIDFromState (saveIDToState [] "t" "vote" 2 "s") "t" "vote" 2 ≠ "" := by
  obtain ⟨h1, h2, h3, h4⟩ := empty_ledger_value_treated_absent [] "t" "post" 1
  have hb := h2 c10ctx "b" c10post [] [] rfl rfl rfl (by decide) rfl rfl
  exact ⟨h1, hb.1, hb.2.1, hb.2.2.1, hb.2.2.2,
    (empty_ledger_value_treated_absent [] "t" "vote" 2).2.2.2⟩

